import Mathlib

/-!
Verification of the MonetDB binary column codec and bulk-transfer layer of
the `olap-benchmarks` repository.

The Python sources embedded here are the per-type binary column codecs in
`tsdb_benchmarks/monetdb/binary.py`, `tsdb_benchmarks/monetdb/insert.py` and
`tsdb_benchmarks/monetdb/fetch.py`, the staging/transfer control flow of the
`insert` and `fetch_binary` orchestrators, and the probe-row query rewrite
`get_limit_query` from `tsdb_benchmarks/dbs/monetdb/utils.py`.

Modelling conventions:
* a byte buffer is a `List Nat` whose elements are below 256 (encoders only
  produce such lists; decoders are total on `List Nat`);
* a typed column is a `List (Option v)` where `v` is the per-type value
  representation;
* machine integers are `Int`/`Nat` with explicit two's-complement wrapping
  (`% 2 ^ w`), matching the numpy `astype`/buffer semantics of the source;
* fallible code returns `Except String`, the error strings matching the
  Python exception messages.
-/

/-- Number of seconds in a day times nanoseconds, used for `pl.Time` bounds. -/
def nanosPerDay : Nat := 86400000000000

/-- Little-endian byte encoding of `n % 256 ^ k` on exactly `k` bytes.
Models `int.to_bytes(k, "little")` / numpy little-endian buffer layout. -/
def toLEBytes : Nat → Nat → List Nat
  | 0, _ => []
  | k + 1, n => n % 256 :: toLEBytes k (n / 256)

/-- Little-endian byte decoding. Models `int.from_bytes(bs, "little")` /
reading a little-endian fixed-width field from a numpy record. -/
def fromLEBytes : List Nat → Nat
  | [] => 0
  | b :: bs => b + 256 * fromLEBytes bs

theorem toLEBytes_length (k n : Nat) : (toLEBytes k n).length = k := by
  induction k generalizing n with
  | zero => rfl
  | succ k ih => simp [toLEBytes, ih]

theorem fromLEBytes_toLEBytes (k n : Nat) :
    fromLEBytes (toLEBytes k n) = n % 256 ^ k := by
  induction k generalizing n with
  | zero => simp [toLEBytes, fromLEBytes, Nat.mod_one]
  | succ k ih =>
      simp only [toLEBytes, fromLEBytes, ih]
      rw [pow_succ, Nat.mul_comm (256 ^ k) 256, Nat.mod_mul]

/-- Two's-complement encoding of an `Int` into `k` bytes' worth of bits:
the unsigned residue of `v` modulo `2 ^ (8 * k)`.  Models numpy storing a
signed value (with `astype` wrap-around on overflow). -/
def toUnsigned (k : Nat) (v : Int) : Nat := (v % ((2 : Int) ^ (8 * k))).toNat

/-- Two's-complement decoding of `k` bytes' worth of bits into a signed
`Int`. Models numpy reinterpreting a little-endian buffer as `intN`. -/
def toSigned (k : Nat) (n : Nat) : Int :=
  if n < 2 ^ (8 * k - 1) then (n : Int) else (n : Int) - 2 ^ (8 * k)

/-- `np.iinfo(intN).min`: the minimum representable signed value for a
`k`-byte signed integer; used as the in-band null sentinel. -/
def intMin (k : Nat) : Int := -((2 : Int) ^ (8 * k - 1))

theorem toUnsigned_lt (k : Nat) (v : Int) : toUnsigned k v < 2 ^ (8 * k) := by
  have h2 : (0 : Int) < (2 : Int) ^ (8 * k) := by positivity
  have h1 := Int.emod_lt_of_pos v h2
  have h0 := Int.emod_nonneg v (ne_of_gt h2)
  have hc : (((2 : Nat) ^ (8 * k) : Nat) : Int) = (2 : Int) ^ (8 * k) := by
    push_cast; ring
  unfold toUnsigned
  omega

theorem toSigned_toUnsigned (k : Nat) (hk : 0 < k) (v : Int)
    (hlo : intMin k ≤ v) (hhi : v < 2 ^ (8 * k - 1)) :
    toSigned k (toUnsigned k v) = v := by
  have hsplit : 8 * k - 1 + 1 = 8 * k := by omega
  have hpow : (2 : Int) ^ (8 * k) = 2 ^ (8 * k - 1) * 2 := by
    rw [← pow_succ, hsplit]
  have hp1 : (0 : Int) < (2 : Int) ^ (8 * k - 1) := by positivity
  have hcast : (((2 : Nat) ^ (8 * k - 1) : Nat) : Int) = (2 : Int) ^ (8 * k - 1) := by
    push_cast; ring
  have hlo' : -((2 : Int) ^ (8 * k - 1)) ≤ v := hlo
  rcases le_or_lt 0 v with hpos | hneg
  · have hv : v % (2 : Int) ^ (8 * k) = v := by
      apply Int.emod_eq_of_lt hpos
      omega
    have hlt : v.toNat < 2 ^ (8 * k - 1) := by omega
    unfold toSigned toUnsigned
    rw [hv, if_pos hlt]
    omega
  · have hv : v % (2 : Int) ^ (8 * k) = v + 2 ^ (8 * k) := by
      have h1 : (v + (2 : Int) ^ (8 * k) * 1) % (2 : Int) ^ (8 * k)
          = v % (2 : Int) ^ (8 * k) :=
        Int.add_mul_emod_self_left v ((2 : Int) ^ (8 * k)) 1
      have h2 : (v + (2 : Int) ^ (8 * k)) % (2 : Int) ^ (8 * k) = v + 2 ^ (8 * k) := by
        apply Int.emod_eq_of_lt
        · omega
        · omega
      have h3 : v + (2 : Int) ^ (8 * k) * 1 = v + 2 ^ (8 * k) := by ring
      rw [← h1, h3, h2]
    have hge : ¬ ((v + (2 : Int) ^ (8 * k)).toNat < 2 ^ (8 * k - 1)) := by omega
    unfold toSigned toUnsigned
    rw [hv, if_neg hge]
    omega

theorem intMin_lt_zero (k : Nat) : intMin k < 0 := by
  have hp1 : (0 : Int) < (2 : Int) ^ (8 * k - 1) := by positivity
  unfold intMin
  omega

theorem toSigned_intMin (k : Nat) (hk : 0 < k) :
    toSigned k (toUnsigned k (intMin k)) = intMin k := by
  apply toSigned_toUnsigned k hk _ le_rfl
  have := intMin_lt_zero k
  have : (0 : Int) < 2 ^ (8 * k - 1) := by positivity
  omega

/-- Structurally recursive worker for `chunks` (fuel bounds the recursion
depth so that concrete evaluation reduces in the kernel). -/
def chunksGo (k : Nat) : Nat → List Nat → List (List Nat)
  | 0, _ => []
  | fuel + 1, bs =>
      if k = 0 then []
      else if bs.length < k then []
      else bs.take k :: chunksGo k fuel (bs.drop k)

/-- Split a byte buffer into consecutive records of exactly `k` bytes.
Models `np.frombuffer(data, dtype)` for an itemsize-`k` dtype.  (On a
buffer whose length is not a multiple of `k`, numpy raises; the claims
below only evaluate it on exact multiples, where this model agrees.) -/
def chunks (k : Nat) (bs : List Nat) : List (List Nat) :=
  chunksGo k bs.length bs

theorem chunksGo_empty (k f : Nat) : chunksGo k f [] = [] := by
  cases f with
  | zero => rfl
  | succ f =>
      simp only [chunksGo]
      by_cases hk : k = 0
      · simp [hk]
      · simp [hk, Nat.pos_of_ne_zero hk]

theorem chunksGo_fuel (k : Nat) (f1 f2 : Nat) (bs : List Nat)
    (h1 : bs.length ≤ f1) (h2 : bs.length ≤ f2) :
    chunksGo k f1 bs = chunksGo k f2 bs := by
  induction f1 generalizing f2 bs with
  | zero =>
      have hbs : bs = [] := by
        cases bs with
        | nil => rfl
        | cons a l => simp at h1
      subst hbs
      rw [chunksGo_empty, chunksGo_empty]
  | succ f1 ih =>
      cases f2 with
      | zero =>
          have hbs : bs = [] := by
            cases bs with
            | nil => rfl
            | cons a l => simp at h2
          subst hbs
          rw [chunksGo_empty, chunksGo_empty]
      | succ f2 =>
          simp only [chunksGo]
          by_cases hk : k = 0
          · simp [hk]
          · simp only [hk, if_false]
            by_cases hlen : bs.length < k
            · simp [hlen]
            · simp only [hlen, if_false]
              have hdrop : (bs.drop k).length = bs.length - k := by simp
              have hk0 : 0 < k := Nat.pos_of_ne_zero hk
              rw [ih f2 (bs.drop k) (by omega) (by omega)]

theorem chunks_nil (k : Nat) : chunks k [] = [] := rfl

theorem chunks_append (k : Nat) (hk : 0 < k) (c rest : List Nat)
    (hc : c.length = k) :
    chunks k (c ++ rest) = c :: chunks k rest := by
  unfold chunks
  have hlen : (c ++ rest).length = k + rest.length := by simp [hc]
  rw [hlen]
  cases hkr : k + rest.length with
  | zero => omega
  | succ m =>
      simp only [chunksGo]
      have hk0 : ¬ k = 0 := by omega
      have hnl : ¬ (c ++ rest).length < k := by simp [hc]
      simp only [hk0, if_false, hnl, if_false]
      have htake : (c ++ rest).take k = c := List.take_left' hc
      have hdrop : (c ++ rest).drop k = rest := List.drop_left' hc
      rw [htake, hdrop]
      congr 1
      exact chunksGo_fuel k m rest.length rest (by omega) le_rfl

/-- The single core lemma behind every fixed-width round trip: splitting a
concatenation of `k`-byte records recovers exactly the records. -/
theorem chunks_flatMap {α : Type} (k : Nat) (hk : 0 < k) (f : α → List Nat)
    (hf : ∀ a, (f a).length = k) (l : List α) :
    chunks k (l.flatMap f) = l.map f := by
  induction l with
  | nil => rw [List.flatMap_nil, chunks_nil, List.map_nil]
  | cons a l ih =>
      rw [List.flatMap_cons, chunks_append k hk _ _ (hf a), ih, List.map_cons]

/-! ### Boolean codec

`write_boolean_column` / the boolean branch of `write_numeric_column`
(`insert.py`), and the boolean branch of `read_numeric_column`
(`fetch.py`): null → byte 128, true → 1, false → 0; on decode byte 128 →
null, any other byte is cast to a boolean (nonzero → true). -/

def BOOLEAN_NULL : Nat := 128

def write_boolean_column (col : List (Option Bool)) : List Nat :=
  col.map fun v =>
    match v with
    | none => BOOLEAN_NULL
    | some true => 1
    | some false => 0

def read_boolean_column (data : List Nat) : List (Option Bool) :=
  data.map fun b => if b = BOOLEAN_NULL then none else some (b != 0)

theorem read_write_boolean (col : List (Option Bool)) :
    read_boolean_column (write_boolean_column col) = col := by
  induction col with
  | nil => rfl
  | cons v rest ih =>
      rcases v with _ | b
      · simpa [read_boolean_column, write_boolean_column, BOOLEAN_NULL] using ih
      · cases b <;>
          simpa [read_boolean_column, write_boolean_column, BOOLEAN_NULL] using ih

/-! ### Signed integer codec

`write_numeric_column` (`insert.py` lines 68-82): nulls are replaced by
`np.iinfo(np_dtype).min` *before* conversion, then the values are laid out
as little-endian fixed-width records.  `read_numeric_column` (`fetch.py`
lines 205-235): reinterpret the buffer as the fixed-width signed dtype and
replace the minimum representable value by null. -/

def write_int_column (k : Nat) (col : List (Option Int)) : List Nat :=
  col.flatMap fun v => toLEBytes k (toUnsigned k (v.getD (intMin k)))

def read_int_column (k : Nat) (data : List Nat) : List (Option Int) :=
  (chunks k data).map fun c =>
    let v := toSigned k (fromLEBytes c)
    if v = intMin k then none else some v

theorem int_record_length (k : Nat) (v : Option Int) :
    (toLEBytes k (toUnsigned k (v.getD (intMin k)))).length = k :=
  toLEBytes_length k _

theorem fromLEBytes_toLEBytes_toUnsigned (k : Nat) (v : Int) :
    fromLEBytes (toLEBytes k (toUnsigned k v)) = toUnsigned k v := by
  rw [fromLEBytes_toLEBytes]
  apply Nat.mod_eq_of_lt
  have h := toUnsigned_lt k v
  have hpow : (256 : Nat) ^ k = 2 ^ (8 * k) := by
    rw [pow_mul]; norm_num
  omega

theorem read_write_int (k : Nat) (hk : 0 < k) (col : List (Option Int))
    (hvals : ∀ v ∈ col, ∀ x ∈ v, intMin k < x ∧ x < 2 ^ (8 * k - 1)) :
    read_int_column k (write_int_column k col) = col := by
  unfold read_int_column write_int_column
  rw [chunks_flatMap k hk _ (int_record_length k), List.map_map]
  conv_rhs => rw [← List.map_id col]
  apply List.map_congr_left
  intro v hv
  rcases v with _ | x
  · simp only [Function.comp_apply, Option.getD_none, id_eq]
    rw [fromLEBytes_toLEBytes_toUnsigned, toSigned_intMin k hk, if_pos rfl]
  · have hx := hvals (some x) hv x rfl
    simp only [Function.comp_apply, Option.getD_some, id_eq]
    rw [fromLEBytes_toLEBytes_toUnsigned,
      toSigned_toUnsigned k hk x (le_of_lt hx.1) hx.2]
    rw [if_neg (by exact ne_of_gt hx.1)]

/-! ### Float codec (bit-pattern level)

Floats are modelled by their IEEE-754 bit patterns (a `Nat` below
`2 ^ (8 * k)`).  `write_numeric_column` fills nulls with `np.nan` (the
quiet-NaN pattern below) before writing; `read_numeric_column` runs
`fill_nan(None)`, which nullifies *every* NaN pattern. -/

def nanBits (k : Nat) : Nat :=
  if k = 4 then 0x7FC00000 else 0x7FF8000000000000

/-- NaN test on a `k=4` or `k=8` byte IEEE-754 bit pattern: exponent all
ones and mantissa nonzero. -/
def isNaNBits (k : Nat) (n : Nat) : Bool :=
  if k = 4 then decide ((n / 2 ^ 23) % 2 ^ 8 = 255 ∧ n % 2 ^ 23 ≠ 0)
  else decide ((n / 2 ^ 52) % 2 ^ 11 = 2047 ∧ n % 2 ^ 52 ≠ 0)

def write_float_column (k : Nat) (col : List (Option Nat)) : List Nat :=
  col.flatMap fun v => toLEBytes k (v.getD (nanBits k))

def read_float_column (k : Nat) (data : List Nat) : List (Option Nat) :=
  (chunks k data).map fun c =>
    let n := fromLEBytes c
    if isNaNBits k n then none else some n

theorem read_write_float (k : Nat) (hk : k = 4 ∨ k = 8) (col : List (Option Nat))
    (hvals : ∀ v ∈ col, ∀ x ∈ v, x < 2 ^ (8 * k) ∧ isNaNBits k x = false) :
    read_float_column k (write_float_column k col) = col := by
  have hk0 : 0 < k := by omega
  have hrec : ∀ v : Option Nat, (toLEBytes k (v.getD (nanBits k))).length = k :=
    fun v => toLEBytes_length k _
  unfold read_float_column write_float_column
  rw [chunks_flatMap k hk0 _ hrec, List.map_map]
  conv_rhs => rw [← List.map_id col]
  apply List.map_congr_left
  intro v hv
  have hpow : (256 : Nat) ^ k = 2 ^ (8 * k) := by
    rw [pow_mul]; norm_num
  rcases v with _ | x
  · have hnan : fromLEBytes (toLEBytes k (nanBits k)) = nanBits k := by
      rw [fromLEBytes_toLEBytes, hpow]
      apply Nat.mod_eq_of_lt
      rcases hk with h | h <;> subst h <;> norm_num [nanBits]
    have hisnan : isNaNBits k (nanBits k) = true := by
      rcases hk with h | h <;> subst h <;> decide
    simp only [Function.comp_apply, Option.getD_none, id_eq, hnan, hisnan,
      if_true]
  · have hx := hvals (some x) hv x rfl
    have hfrom : fromLEBytes (toLEBytes k x) = x := by
      rw [fromLEBytes_toLEBytes, hpow]
      exact Nat.mod_eq_of_lt hx.1
    simp only [Function.comp_apply, Option.getD_some, id_eq, hfrom, hx.2,
      Bool.false_eq_true, if_false]

/-! ### Date codec

`write_date_column` / `read_date_column`: 4-byte records
`{day:u8, month:u8, year:i16le}`; the null record is `{255, 255, -1}` and
a record decodes to null exactly when `year == -1`.  Field values are
stored with numpy unsafe-cast wrap-around (`% 256` / two's complement on
16 bits). -/

structure DateVal where
  year : Int
  month : Nat
  day : Nat
  deriving Repr, DecidableEq

def DATE_NULL_RECORD : List Nat := [255, 255, 255, 255]

def write_date_record : Option DateVal → List Nat
  | none => DATE_NULL_RECORD
  | some d => [d.day % 256, d.month % 256] ++ toLEBytes 2 (toUnsigned 2 d.year)

def write_date_column (col : List (Option DateVal)) : List Nat :=
  col.flatMap write_date_record

def read_date_record (c : List Nat) : Option DateVal :=
  let year := toSigned 2 (fromLEBytes (c.drop 2))
  if year = -1 then none else some ⟨year, c.getD 1 0, c.getD 0 0⟩

def read_date_column (data : List Nat) : List (Option DateVal) :=
  (chunks 4 data).map read_date_record

theorem write_date_record_length (v : Option DateVal) :
    (write_date_record v).length = 4 := by
  rcases v with _ | d
  · rfl
  · simp [write_date_record, toLEBytes_length]

theorem toSigned_two_neg_one :
    toSigned 2 (fromLEBytes (DATE_NULL_RECORD.drop 2)) = -1 := by decide

theorem read_write_date (col : List (Option DateVal))
    (hvals : ∀ v ∈ col, ∀ d ∈ v,
      d.day < 256 ∧ d.month < 256 ∧ intMin 2 ≤ d.year ∧ d.year < 2 ^ 15 ∧
        d.year ≠ -1) :
    read_date_column (write_date_column col) = col := by
  unfold read_date_column write_date_column
  rw [chunks_flatMap 4 (by norm_num) _ write_date_record_length, List.map_map]
  conv_rhs => rw [← List.map_id col]
  apply List.map_congr_left
  intro v hv
  rcases v with _ | d
  · simp only [Function.comp_apply, id_eq, write_date_record]
    rw [read_date_record, toSigned_two_neg_one, if_pos rfl]
  · obtain ⟨hday, hmonth, hylo, hyhi, hyne⟩ := hvals (some d) hv d rfl
    simp only [Function.comp_apply, id_eq, write_date_record]
    unfold read_date_record
    have hdrop : ([d.day % 256, d.month % 256] ++ toLEBytes 2 (toUnsigned 2 d.year)).drop 2
        = toLEBytes 2 (toUnsigned 2 d.year) := rfl
    have hyear : toSigned 2 (fromLEBytes (toLEBytes 2 (toUnsigned 2 d.year))) = d.year := by
      rw [fromLEBytes_toLEBytes_toUnsigned, toSigned_toUnsigned 2 (by norm_num) _ hylo]
      exact_mod_cast hyhi
    rw [hdrop, hyear, if_neg hyne]
    have h1 : ([d.day % 256, d.month % 256] ++ toLEBytes 2 (toUnsigned 2 d.year)).getD 1 0
        = d.month % 256 := rfl
    have h0 : ([d.day % 256, d.month % 256] ++ toLEBytes 2 (toUnsigned 2 d.year)).getD 0 0
        = d.day % 256 := rfl
    rw [h1, h0, Nat.mod_eq_of_lt hmonth, Nat.mod_eq_of_lt hday]

/-! ### Time codec

`write_time_column` / `read_time_column`: 8-byte records
`{ms:u32le, seconds:u8, minutes:u8, hours:u8, padding:u8}`.  A `pl.Time`
value is its count of nanoseconds since midnight; the writer extracts the
millisecond/second/minute/hour components (truncating sub-millisecond
precision), the reader classifies a record as null when
`ms == 0xFFFFFFFF or seconds >= 60 or minutes >= 60 or hours >= 24` and
otherwise rebuilds the nanosecond count. -/

def TIME_NULL_RECORD : List Nat := [255, 255, 255, 255, 255, 255, 255, 255]

def msOfNanos (t : Nat) : Nat := t / 1000000 % 1000
def secondOfNanos (t : Nat) : Nat := t / 1000000000 % 60
def minuteOfNanos (t : Nat) : Nat := t / 60000000000 % 60
def hourOfNanos (t : Nat) : Nat := t / 3600000000000

def write_time_record : Option Nat → List Nat
  | none => TIME_NULL_RECORD
  | some t =>
      toLEBytes 4 (msOfNanos t) ++
        [secondOfNanos t, minuteOfNanos t, hourOfNanos t % 256, 0]

def write_time_column (col : List (Option Nat)) : List Nat :=
  col.flatMap write_time_record

def read_time_record (c : List Nat) : Option Nat :=
  let ms := fromLEBytes (c.take 4)
  let s := c.getD 4 0
  let m := c.getD 5 0
  let h := c.getD 6 0
  if ms = 0xFFFFFFFF ∨ 60 ≤ s ∨ 60 ≤ m ∨ 24 ≤ h then none
  else some ((h * 3600000 + m * 60000 + s * 1000 + ms) * 1000000)

def read_time_column (data : List Nat) : List (Option Nat) :=
  (chunks 8 data).map read_time_record

theorem write_time_record_length (v : Option Nat) :
    (write_time_record v).length = 8 := by
  rcases v with _ | t
  · rfl
  · simp [write_time_record, toLEBytes_length]

theorem read_time_record_bytes (ms s m h p : Nat) (hms : ms < 2 ^ 32) :
    read_time_record (toLEBytes 4 ms ++ [s, m, h, p]) =
      if ms = 0xFFFFFFFF ∨ 60 ≤ s ∨ 60 ≤ m ∨ 24 ≤ h then none
      else some ((h * 3600000 + m * 60000 + s * 1000 + ms) * 1000000) := by
  have hle : toLEBytes 4 ms
      = [ms % 256, ms / 256 % 256, ms / 256 / 256 % 256, ms / 256 / 256 / 256 % 256] := rfl
  have hfrom : fromLEBytes (toLEBytes 4 ms) = ms := by
    rw [fromLEBytes_toLEBytes]
    exact Nat.mod_eq_of_lt (by norm_num; omega)
  rw [hle] at hfrom ⊢
  unfold read_time_record
  have htake : ([ms % 256, ms / 256 % 256, ms / 256 / 256 % 256,
      ms / 256 / 256 / 256 % 256] ++ [s, m, h, p]).take 4
      = [ms % 256, ms / 256 % 256, ms / 256 / 256 % 256, ms / 256 / 256 / 256 % 256] := rfl
  rw [htake, hfrom]
  rfl

theorem read_write_time (col : List (Option Nat))
    (hvals : ∀ v ∈ col, ∀ t ∈ v, t < nanosPerDay ∧ t % 1000000 = 0) :
    read_time_column (write_time_column col) = col := by
  unfold read_time_column write_time_column
  rw [chunks_flatMap 8 (by norm_num) _ write_time_record_length, List.map_map]
  conv_rhs => rw [← List.map_id col]
  apply List.map_congr_left
  intro v hv
  rcases v with _ | t
  · simp only [Function.comp_apply, id_eq, write_time_record]
    rw [show read_time_record TIME_NULL_RECORD = none from by decide]
  · obtain ⟨hlt, hms⟩ := hvals (some t) hv t rfl
    have hmslt : msOfNanos t < 1000 := Nat.mod_lt _ (by norm_num)
    have hslt : secondOfNanos t < 60 := Nat.mod_lt _ (by norm_num)
    have hmlt : minuteOfNanos t < 60 := Nat.mod_lt _ (by norm_num)
    have hhlt : hourOfNanos t < 24 := by
      unfold hourOfNanos nanosPerDay at *
      omega
    simp only [Function.comp_apply, id_eq, write_time_record]
    have hh256 : hourOfNanos t % 256 = hourOfNanos t := Nat.mod_eq_of_lt (by omega)
    rw [hh256, read_time_record_bytes _ _ _ _ _ (by omega)]
    rw [if_neg (by push_neg; refine ⟨by omega, hslt, hmlt, hhlt⟩)]
    congr 1
    unfold msOfNanos secondOfNanos minuteOfNanos hourOfNanos at *
    omega

/-! ### Datetime codec

`write_datetime_column` / `read_datetime_column`: 12-byte records, the
time fields followed by the date fields
(`{ms:u32le, seconds:u8, minutes:u8, hours:u8, padding:u8, day:u8,
month:u8, year:i16le}`).  The writer first casts the series to
`pl.Datetime("ms")` (so values are modelled at millisecond resolution);
the reader classifies a record as null exactly when `year == -1`. -/

structure DatetimeVal where
  year : Int
  month : Nat
  day : Nat
  hour : Nat
  minute : Nat
  second : Nat
  ms : Nat
  deriving Repr, DecidableEq

def DATETIME_NULL_RECORD : List Nat :=
  [255, 255, 255, 255, 255, 255, 255, 255, 255, 255, 255, 255]

def write_datetime_record : Option DatetimeVal → List Nat
  | none => DATETIME_NULL_RECORD
  | some d =>
      toLEBytes 4 d.ms ++
        [d.second % 256, d.minute % 256, d.hour % 256, 0, d.day % 256,
          d.month % 256] ++ toLEBytes 2 (toUnsigned 2 d.year)

def write_datetime_column (col : List (Option DatetimeVal)) : List Nat :=
  col.flatMap write_datetime_record

def read_datetime_record (c : List Nat) : Option DatetimeVal :=
  let year := toSigned 2 (fromLEBytes (c.drop 10))
  if year = -1 then none
  else
    some ⟨year, c.getD 9 0, c.getD 8 0, c.getD 6 0, c.getD 5 0, c.getD 4 0,
      fromLEBytes (c.take 4)⟩

def read_datetime_column (data : List Nat) : List (Option DatetimeVal) :=
  (chunks 12 data).map read_datetime_record

theorem write_datetime_record_length (v : Option DatetimeVal) :
    (write_datetime_record v).length = 12 := by
  rcases v with _ | d
  · rfl
  · simp [write_datetime_record, toLEBytes_length]

theorem read_write_datetime (col : List (Option DatetimeVal))
    (hvals : ∀ v ∈ col, ∀ d ∈ v,
      d.ms < 1000 ∧ d.second < 60 ∧ d.minute < 60 ∧ d.hour < 24 ∧
        d.day < 256 ∧ d.month < 256 ∧ intMin 2 ≤ d.year ∧ d.year < 2 ^ 15 ∧
        d.year ≠ -1) :
    read_datetime_column (write_datetime_column col) = col := by
  unfold read_datetime_column write_datetime_column
  rw [chunks_flatMap 12 (by norm_num) _ write_datetime_record_length,
    List.map_map]
  conv_rhs => rw [← List.map_id col]
  apply List.map_congr_left
  intro v hv
  rcases v with _ | d
  · simp only [Function.comp_apply, id_eq, write_datetime_record]
    rw [show read_datetime_record DATETIME_NULL_RECORD = none from by decide]
  · obtain ⟨hms, hsec, hmin, hhour, hday, hmonth, hylo, hyhi, hyne⟩ :=
      hvals (some d) hv d rfl
    simp only [Function.comp_apply, id_eq, write_datetime_record]
    have hle4 : toLEBytes 4 d.ms
        = [d.ms % 256, d.ms / 256 % 256, d.ms / 256 / 256 % 256,
            d.ms / 256 / 256 / 256 % 256] := rfl
    have hle2 : toLEBytes 2 (toUnsigned 2 d.year)
        = [toUnsigned 2 d.year % 256, toUnsigned 2 d.year / 256 % 256] := rfl
    rw [hle4, hle2]
    unfold read_datetime_record
    have hyear : toSigned 2 (fromLEBytes
        [toUnsigned 2 d.year % 256, toUnsigned 2 d.year / 256 % 256]) = d.year := by
      rw [show fromLEBytes [toUnsigned 2 d.year % 256, toUnsigned 2 d.year / 256 % 256]
          = fromLEBytes (toLEBytes 2 (toUnsigned 2 d.year)) from rfl]
      rw [fromLEBytes_toLEBytes_toUnsigned, toSigned_toUnsigned 2 (by norm_num) _ hylo]
      exact_mod_cast hyhi
    have hfrom : fromLEBytes [d.ms % 256, d.ms / 256 % 256, d.ms / 256 / 256 % 256,
        d.ms / 256 / 256 / 256 % 256] = d.ms := by
      rw [show fromLEBytes [d.ms % 256, d.ms / 256 % 256, d.ms / 256 / 256 % 256,
          d.ms / 256 / 256 / 256 % 256] = fromLEBytes (toLEBytes 4 d.ms) from rfl]
      rw [fromLEBytes_toLEBytes]
      exact Nat.mod_eq_of_lt (by norm_num; omega)
    simp only [List.cons_append, List.nil_append, List.drop, List.take,
      List.getD, List.get?, Option.getD_some]
    rw [show (List.append ([] : List Nat) [toUnsigned 2 d.year % 256,
        toUnsigned 2 d.year / 256 % 256])
        = [toUnsigned 2 d.year % 256, toUnsigned 2 d.year / 256 % 256] from rfl]
    rw [hyear, if_neg hyne, hfrom]
    rw [Nat.mod_eq_of_lt hmonth, Nat.mod_eq_of_lt hday,
      Nat.mod_eq_of_lt (by omega : d.hour < 256),
      Nat.mod_eq_of_lt (by omega : d.minute < 256),
      Nat.mod_eq_of_lt (by omega : d.second < 256)]

/-! ### Text codec

`write_string_column` (`binary.py` lines 281-291): each non-null value is
its UTF-8 byte sequence followed by a single `0x00` terminator; a null is
the 2-byte marker `0x80 0x00`.  `read_string_column` (`binary.py` lines
256-278): records are the byte runs before each `0x00`; a 1-byte run equal
to `0x80` is null, an empty run is the empty string, anything else is the
run itself.  (Bytes after the final terminator are never visited by the
source loop.)  Values are modelled as UTF-8 byte lists. -/

def STRING_NULL_MARKER : List Nat := [0x80, 0x00]

def write_string_column (col : List (Option (List Nat))) : List Nat :=
  col.flatMap fun v =>
    match v with
    | none => STRING_NULL_MARKER
    | some bs => bs ++ [0]

/-- The terminated byte runs of a buffer: the maximal `0x00`-free segments
preceding each `0x00` byte, in order; bytes after the last `0x00` (an
unterminated trailing record) produce no run, exactly like the source
loop over `nul_positions`. -/
def splitRecords (acc : List Nat) : List Nat → List (List Nat)
  | [] => []
  | b :: rest =>
      if b = 0 then acc.reverse :: splitRecords [] rest
      else splitRecords (b :: acc) rest

def read_string_column (data : List Nat) : List (Option (List Nat)) :=
  (splitRecords [] data).map fun r => if r = [0x80] then none else some r

theorem splitRecords_append (bs : List Nat) (hbs : 0 ∉ bs)
    (acc rest : List Nat) :
    splitRecords acc (bs ++ 0 :: rest)
      = (acc.reverse ++ bs) :: splitRecords [] rest := by
  induction bs generalizing acc with
  | nil => simp [splitRecords]
  | cons b bs ih =>
      have hb : b ≠ 0 := by
        intro h
        exact hbs (h ▸ List.mem_cons_self b bs)
      have hbs' : 0 ∉ bs := fun h => hbs (List.mem_cons_of_mem b h)
      simp only [List.cons_append, splitRecords, hb, if_false, List.append_eq]
      rw [ih hbs' (b :: acc)]
      simp

theorem read_write_string (col : List (Option (List Nat)))
    (hvals : ∀ v ∈ col, ∀ bs ∈ v, 0 ∉ bs ∧ bs ≠ [0x80]) :
    read_string_column (write_string_column col) = col := by
  induction col with
  | nil => rfl
  | cons v rest ih =>
      have hrest : ∀ v ∈ rest, ∀ bs ∈ v, 0 ∉ bs ∧ bs ≠ [0x80] :=
        fun v hv => hvals v (List.mem_cons_of_mem _ hv)
      rcases v with _ | bs
      · unfold write_string_column at *
        rw [List.flatMap_cons]
        unfold read_string_column at *
        rw [show (STRING_NULL_MARKER ++ rest.flatMap fun v =>
            match v with
            | none => STRING_NULL_MARKER
            | some bs => bs ++ [0]) = [0x80] ++ 0 :: (rest.flatMap fun v =>
            match v with
            | none => STRING_NULL_MARKER
            | some bs => bs ++ [0]) from rfl]
        rw [splitRecords_append [0x80] (by decide) []]
        rw [List.map_cons, ih hrest]
        simp
      · obtain ⟨hz, hne⟩ := hvals (some bs) (List.mem_cons_self _ _) bs rfl
        unfold write_string_column at *
        rw [List.flatMap_cons]
        unfold read_string_column at *
        rw [show ((bs ++ [0]) ++ rest.flatMap fun v =>
            match v with
            | none => STRING_NULL_MARKER
            | some bs => bs ++ [0]) = bs ++ 0 :: (rest.flatMap fun v =>
            match v with
            | none => STRING_NULL_MARKER
            | some bs => bs ++ [0]) from by simp]
        rw [splitRecords_append bs hz []]
        rw [List.map_cons, ih hrest]
        simp [hne]

/-! ### Blob codec

`write_blob_column` / `read_blob_column` (`binary.py` lines 321-359):
each record is an 8-byte little-endian unsigned length prefix followed by
that many raw bytes; a null is the all-ones length `0xFFFFFFFFFFFFFFFF`
with no payload.  The reader loops while at least 8 bytes remain; a
declared payload length running past the end of the file raises
`ValueError("File ends prematurely while reading blob data")`. -/

def BLOB_NULL_MARKER : List Nat := toLEBytes 8 0xFFFFFFFFFFFFFFFF

def write_blob_column (col : List (Option (List Nat))) : List Nat :=
  col.flatMap fun v =>
    match v with
    | none => BLOB_NULL_MARKER
    | some bs => toLEBytes 8 bs.length ++ bs

/-- Structurally recursive worker for `read_blob_column` (fuel bounds the
recursion depth so that concrete evaluation reduces in the kernel). -/
def readBlobGo : Nat → List Nat → Except String (List (Option (List Nat)))
  | 0, _ => .ok []
  | fuel + 1, data =>
      if data.length < 8 then .ok []
      else
        let len := fromLEBytes (data.take 8)
        let rest := data.drop 8
        if len = 0xFFFFFFFFFFFFFFFF then
          (readBlobGo fuel rest).map fun l => none :: l
        else if rest.length < len then
          .error "File ends prematurely while reading blob data"
        else
          (readBlobGo fuel (rest.drop len)).map fun l => some (rest.take len) :: l

def read_blob_column (data : List Nat) : Except String (List (Option (List Nat))) :=
  readBlobGo data.length data

theorem readBlobGo_fuel (f1 f2 : Nat) (data : List Nat)
    (h1 : data.length ≤ f1) (h2 : data.length ≤ f2) :
    readBlobGo f1 data = readBlobGo f2 data := by
  induction f1 generalizing f2 data with
  | zero =>
      have hd : data = [] := by
        cases data with
        | nil => rfl
        | cons a l => simp at h1
      subst hd
      cases f2 with
      | zero => rfl
      | succ f2 => simp [readBlobGo]
  | succ f1 ih =>
      cases f2 with
      | zero =>
          have hd : data = [] := by
            cases data with
            | nil => rfl
            | cons a l => simp at h2
          subst hd
          simp [readBlobGo]
      | succ f2 =>
          simp only [readBlobGo]
          by_cases hlen : data.length < 8
          · simp [hlen]
          · simp only [hlen, if_false]
            have hdrop : (data.drop 8).length = data.length - 8 := by simp
            by_cases hsent : fromLEBytes (data.take 8) = 0xFFFFFFFFFFFFFFFF
            · simp only [hsent, if_true]
              rw [ih f2 (data.drop 8) (by omega) (by omega)]
            · simp only [hsent, if_false]
              by_cases hshort : (data.drop 8).length < fromLEBytes (data.take 8)
              · have hshort2 : data.length - 8 < fromLEBytes (data.take 8) := by
                  omega
                simp [hshort2]
              · simp only [hshort, if_false]
                have hdd : ((data.drop 8).drop (fromLEBytes (data.take 8))).length
                    = data.length - (8 + fromLEBytes (data.take 8)) := by simp
                rw [ih f2 ((data.drop 8).drop (fromLEBytes (data.take 8)))
                  (by omega) (by omega)]

theorem fromLEBytes_blob_null : fromLEBytes BLOB_NULL_MARKER = 0xFFFFFFFFFFFFFFFF := by
  decide

theorem read_write_blob_go (col : List (Option (List Nat)))
    (hvals : ∀ v ∈ col, ∀ bs ∈ v, bs.length < 0xFFFFFFFFFFFFFFFF) :
    ∀ fuel, (write_blob_column col).length ≤ fuel →
      readBlobGo fuel (write_blob_column col) = .ok col := by
  induction col with
  | nil =>
      intro fuel _
      cases fuel with
      | zero => rfl
      | succ fuel => simp [write_blob_column, readBlobGo]
  | cons v rest ih =>
      intro fuel hfuel
      have hrest : ∀ v ∈ rest, ∀ bs ∈ v, bs.length < 0xFFFFFFFFFFFFFFFF :=
        fun v hv => hvals v (List.mem_cons_of_mem _ hv)
      rcases v with _ | bs
      · have hw : write_blob_column (none :: rest)
            = BLOB_NULL_MARKER ++ write_blob_column rest := rfl
        rw [hw] at hfuel ⊢
        have hlen : (BLOB_NULL_MARKER ++ write_blob_column rest).length
            = 8 + (write_blob_column rest).length := by
          simp [BLOB_NULL_MARKER, toLEBytes_length]
        cases fuel with
        | zero => omega
        | succ fuel =>
            simp only [readBlobGo]
            have hnl : ¬ (BLOB_NULL_MARKER ++ write_blob_column rest).length < 8 := by
              omega
            simp only [hnl, if_false]
            have htake : (BLOB_NULL_MARKER ++ write_blob_column rest).take 8
                = BLOB_NULL_MARKER := List.take_left' (by decide)
            have hdrop : (BLOB_NULL_MARKER ++ write_blob_column rest).drop 8
                = write_blob_column rest := List.drop_left' (by decide)
            rw [htake, hdrop, fromLEBytes_blob_null, if_pos rfl]
            rw [ih hrest fuel (by omega)]
            rfl
      · obtain hblen := hvals (some bs) (List.mem_cons_self _ _) bs rfl
        have hw : write_blob_column (some bs :: rest)
            = (toLEBytes 8 bs.length ++ bs) ++ write_blob_column rest := rfl
        rw [hw] at hfuel ⊢
        have hlen : ((toLEBytes 8 bs.length ++ bs) ++ write_blob_column rest).length
            = 8 + bs.length + (write_blob_column rest).length := by
          simp [toLEBytes_length]
          omega
        cases fuel with
        | zero => omega
        | succ fuel =>
            simp only [readBlobGo]
            have hnl : ¬ ((toLEBytes 8 bs.length ++ bs) ++ write_blob_column rest).length
                < 8 := by omega
            simp only [hnl, if_false]
            have hassoc : (toLEBytes 8 bs.length ++ bs) ++ write_blob_column rest
                = toLEBytes 8 bs.length ++ (bs ++ write_blob_column rest) := by
              simp
            rw [hassoc]
            have htake : (toLEBytes 8 bs.length ++ (bs ++ write_blob_column rest)).take 8
                = toLEBytes 8 bs.length := List.take_left' (toLEBytes_length 8 _)
            have hdrop : (toLEBytes 8 bs.length ++ (bs ++ write_blob_column rest)).drop 8
                = bs ++ write_blob_column rest := List.drop_left' (toLEBytes_length 8 _)
            rw [htake, hdrop]
            have hfromlen : fromLEBytes (toLEBytes 8 bs.length) = bs.length := by
              rw [fromLEBytes_toLEBytes]
              exact Nat.mod_eq_of_lt (by norm_num; omega)
            rw [hfromlen]
            rw [if_neg (by omega)]
            have hnshort : ¬ (bs ++ write_blob_column rest).length < bs.length := by
              simp
            rw [if_neg hnshort]
            have htake2 : (bs ++ write_blob_column rest).take bs.length = bs :=
              List.take_left' rfl
            have hdrop2 : (bs ++ write_blob_column rest).drop bs.length
                = write_blob_column rest := List.drop_left' rfl
            rw [htake2, hdrop2, ih hrest fuel (by omega)]
            rfl

theorem read_write_blob (col : List (Option (List Nat)))
    (hvals : ∀ v ∈ col, ∀ bs ∈ v, bs.length < 0xFFFFFFFFFFFFFFFF) :
    read_blob_column (write_blob_column col) = .ok col :=
  read_write_blob_go col hvals _ le_rfl

/-! ### Decimal codec

`decimal_numpy_dtype` (`binary.py` lines 49-58) picks the smallest signed
integer width holding `precision` decimal digits and raises for precision
above 18.  `write_decimal_column` (lines 440-447) computes the width
*first*, then stores `(series * 10**scale).cast(pl.Int64)` — an exact
decimal multiply followed by a cast that truncates toward zero — through
`write_numeric_column` with that width's sentinel.  `read_decimal_column`
(lines 428-437) reads the sentinel-aware integers and divides by
`10**scale` after casting to a decimal dtype ("avoid float conversion
issues when dividing by scale"); the division is modelled as exact
rational division, which is what the decimal (base-10) pipeline computes
for the scales the repository allows.  Decimal values are modelled as
`Rat`. -/

def decimal_numpy_dtype (precision : Nat) : Except String Nat :=
  if 1 ≤ precision ∧ precision ≤ 2 then .ok 1
  else if 3 ≤ precision ∧ precision ≤ 4 then .ok 2
  else if 5 ≤ precision ∧ precision ≤ 9 then .ok 4
  else if 10 ≤ precision ∧ precision ≤ 18 then .ok 8
  else .error "Decimal precision too large for integer-based encoding (needs 16 bytes)"

/-- Truncation toward zero of a rational, as performed by the
`cast(pl.Int64)` on the scaled decimal/float series. -/
def truncTowardZero (q : Rat) : Int := q.num.tdiv (q.den : Int)

def write_decimal_column (p s : Nat) (col : List (Option Rat)) :
    Except String (List Nat) :=
  match decimal_numpy_dtype p with
  | .error e => .error e
  | .ok k =>
      .ok (write_int_column k
        (col.map (Option.map fun v => truncTowardZero (v * 10 ^ s))))

def read_decimal_column (p s : Nat) (data : List Nat) :
    Except String (List (Option Rat)) :=
  match decimal_numpy_dtype p with
  | .error e => .error e
  | .ok k =>
      .ok ((read_int_column k data).map
        (Option.map fun n : Int => ((n : Rat) / 10 ^ s : Rat)))

theorem truncTowardZero_eq_floor_or_ceil (q : Rat) :
    truncTowardZero q = if 0 ≤ q then ⌊q⌋ else ⌈q⌉ := by
  have hden : (0 : Int) < (q.den : Int) := by exact_mod_cast q.den_pos
  by_cases hq : 0 ≤ q
  · rw [if_pos hq]
    have hnum : 0 ≤ q.num := Rat.num_nonneg.mpr hq
    unfold truncTowardZero
    rw [Int.tdiv_eq_ediv hnum (le_of_lt hden), Rat.floor_def]
  · rw [if_neg hq]
    have hnum : q.num ≤ 0 := by
      have := Rat.num_nonneg (q := q)
      by_contra hc
      push_neg at hc
      exact hq (this.mp (le_of_lt hc))
    have hceil : ⌈q⌉ = -⌊-q⌋ := by
      calc ⌈q⌉ = ⌈-(-q)⌉ := by rw [neg_neg]
        _ = -⌊-q⌋ := Int.ceil_neg
    unfold truncTowardZero
    have hfneg : ⌊-q⌋ = (-q.num).tdiv ((q.den : Int)) := by
      rw [Rat.floor_def, Rat.neg_num, Rat.neg_den]
      exact (Int.tdiv_eq_ediv (by omega) (le_of_lt hden)).symm
    rw [hceil, hfneg, Int.neg_tdiv, neg_neg]

/-- The storage width chosen by `decimal_numpy_dtype`, as a pure value. -/
def decimalWidth (p : Nat) : Nat :=
  if p ≤ 2 then 1 else if p ≤ 4 then 2 else if p ≤ 9 then 4 else 8

theorem decimal_numpy_dtype_ok (p : Nat) (h1 : 1 ≤ p) (h18 : p ≤ 18) :
    decimal_numpy_dtype p = .ok (decimalWidth p) := by
  unfold decimal_numpy_dtype decimalWidth
  rcases Nat.lt_or_ge p 3 with h | h
  · rw [if_pos (by omega), if_pos (by omega)]
  · rcases Nat.lt_or_ge p 5 with h' | h'
    · rw [if_neg (by omega), if_pos (by omega), if_neg (by omega), if_pos (by omega)]
    · rcases Nat.lt_or_ge p 10 with h'' | h''
      · rw [if_neg (by omega), if_neg (by omega), if_pos (by omega),
          if_neg (by omega), if_neg (by omega), if_pos (by omega)]
      · rw [if_neg (by omega), if_neg (by omega), if_neg (by omega),
          if_pos (by omega), if_neg (by omega), if_neg (by omega),
          if_neg (by omega)]

theorem truncTowardZero_den_one (q : Rat) (h : q.den = 1) :
    truncTowardZero q = q.num := by
  unfold truncTowardZero
  rw [h]
  simp [Int.tdiv_one]

theorem read_write_decimal (p s : Nat) (h1 : 1 ≤ p) (h18 : p ≤ 18)
    (col : List (Option Rat))
    (hvals : ∀ v ∈ col, ∀ q ∈ v, (q * 10 ^ s).den = 1 ∧
      intMin (decimalWidth p) < (q * 10 ^ s).num ∧
      (q * 10 ^ s).num < 2 ^ (8 * decimalWidth p - 1)) :
    (write_decimal_column p s col).bind (read_decimal_column p s) = .ok col := by
  have hk : 0 < decimalWidth p := by
    unfold decimalWidth
    split <;> try split <;> try split
    all_goals norm_num
  unfold write_decimal_column read_decimal_column
  rw [decimal_numpy_dtype_ok p h1 h18]
  simp only [Except.bind]
  have hints : ∀ v ∈ col.map (Option.map fun q => truncTowardZero (q * 10 ^ s)),
      ∀ x ∈ v, intMin (decimalWidth p) < x ∧ x < 2 ^ (8 * decimalWidth p - 1) := by
    intro v hv x hx
    rw [List.mem_map] at hv
    obtain ⟨w, hw, rfl⟩ := hv
    rcases w with _ | q
    · simp at hx
    · simp only [Option.map_some', Option.mem_def, Option.some.injEq] at hx
      obtain ⟨hden, hlo, hhi⟩ := hvals (some q) hw q rfl
      rw [← hx, truncTowardZero_den_one _ hden]
      exact ⟨hlo, hhi⟩
  rw [read_write_int (decimalWidth p) hk _ hints]
  rw [List.map_map]
  congr 1
  conv_rhs => rw [← List.map_id col]
  apply List.map_congr_left
  intro v hv
  rcases v with _ | q
  · rfl
  · obtain ⟨hden, _, _⟩ := hvals (some q) hv q rfl
    simp only [Function.comp_apply, Option.map_some', id_eq, Option.some.injEq]
    rw [truncTowardZero_den_one _ hden, Rat.coe_int_num_of_den_eq_one hden]
    rw [mul_div_assoc, div_self (by positivity), mul_one]

/-! ### Unsigned integer codec

For unsigned dtypes `np.iinfo(np_dtype).min` is `0`, so
`write_numeric_column` fills nulls with `0`; `read_numeric_column` only
replaces the sentinel for the *signed* dtypes (`pl.Int8` … `pl.Int64`),
so unsigned columns decode with no nulls at all. -/

def write_uint_column (k : Nat) (col : List (Option Nat)) : List Nat :=
  col.flatMap fun v => toLEBytes k (v.getD 0)

def read_uint_column (k : Nat) (data : List Nat) : List (Option Nat) :=
  (chunks k data).map fun c => some (fromLEBytes c)

/-! ### Column type dispatch

`Dtype` models the Polars dtype tag that `write_binary_column_data`
(`insert.py` lines 214-244) and `read_binary_column_data` (`fetch.py`
lines 238-253) dispatch on.  The writer supports boolean, fixed-width
integer/float, string, date, time, datetime and binary columns and raises
`ValueError("Unsupported Polars dtype for binary export")` on anything
else (in particular `pl.Object`/JSON and `pl.Decimal`).  The reader
additionally handles `pl.Object` via `read_json_column` (modelled at the
byte level, before the `json.loads` re-parse) and sends all remaining
dtypes to `read_numeric_column`, which raises for dtypes outside its
numpy map (in particular `pl.Decimal`). -/

inductive Dtype where
  | boolean | int8 | int16 | int32 | int64
  | uint8 | uint16 | uint32 | uint64
  | float32 | float64
  | string | date | time | datetime | binary | object
  | decimal (p s : Nat)
  deriving Repr, DecidableEq

/-- The Lean representation of one non-null element of a column of each
dtype: booleans, signed `Int`s, unsigned `Nat`s, float bit patterns,
UTF-8 byte lists, temporal records, raw byte lists, and `Rat` decimals. -/
@[reducible] def Dtype.Value : Dtype → Type
  | .boolean => Bool
  | .int8 | .int16 | .int32 | .int64 => Int
  | .uint8 | .uint16 | .uint32 | .uint64 => Nat
  | .float32 | .float64 => Nat
  | .string => List Nat
  | .date => DateVal
  | .time => Nat
  | .datetime => DatetimeVal
  | .binary => List Nat
  | .object => List Nat
  | .decimal _ _ => Rat

def write_binary_column_data :
    (d : Dtype) → List (Option d.Value) → Except String (List Nat)
  | .boolean, col => .ok (write_boolean_column col)
  | .int8, col => .ok (write_int_column 1 col)
  | .int16, col => .ok (write_int_column 2 col)
  | .int32, col => .ok (write_int_column 4 col)
  | .int64, col => .ok (write_int_column 8 col)
  | .uint8, col => .ok (write_uint_column 1 col)
  | .uint16, col => .ok (write_uint_column 2 col)
  | .uint32, col => .ok (write_uint_column 4 col)
  | .uint64, col => .ok (write_uint_column 8 col)
  | .float32, col => .ok (write_float_column 4 col)
  | .float64, col => .ok (write_float_column 8 col)
  | .string, col => .ok (write_string_column col)
  | .date, col => .ok (write_date_column col)
  | .time, col => .ok (write_time_column col)
  | .datetime, col => .ok (write_datetime_column col)
  | .binary, col => .ok (write_blob_column col)
  | .object, _ => .error "Unsupported Polars dtype for binary export"
  | .decimal _ _, _ => .error "Unsupported Polars dtype for binary export"

def read_binary_column_data :
    (d : Dtype) → List Nat → Except String (List (Option d.Value))
  | .time, data => .ok (read_time_column data)
  | .date, data => .ok (read_date_column data)
  | .datetime, data => .ok (read_datetime_column data)
  | .string, data => .ok (read_string_column data)
  | .object, data => .ok (read_string_column data)
  | .binary, data => read_blob_column data
  | .boolean, data => .ok (read_boolean_column data)
  | .int8, data => .ok (read_int_column 1 data)
  | .int16, data => .ok (read_int_column 2 data)
  | .int32, data => .ok (read_int_column 4 data)
  | .int64, data => .ok (read_int_column 8 data)
  | .uint8, data => .ok (read_uint_column 1 data)
  | .uint16, data => .ok (read_uint_column 2 data)
  | .uint32, data => .ok (read_uint_column 4 data)
  | .uint64, data => .ok (read_uint_column 8 data)
  | .float32, data => .ok (read_float_column 4 data)
  | .float64, data => .ok (read_float_column 8 data)
  | .decimal _ _, _ => .error "Unsupported dtype"

/-- The per-element well-formedness required for a faithful round trip:
values representable in the wire record and distinct from the type's
in-band null sentinel. -/
def validElem : (d : Dtype) → d.Value → Bool
  | .boolean, _ => true
  | .int8, x => decide (intMin 1 < x ∧ x < 2 ^ (8 * 1 - 1))
  | .int16, x => decide (intMin 2 < x ∧ x < 2 ^ (8 * 2 - 1))
  | .int32, x => decide (intMin 4 < x ∧ x < 2 ^ (8 * 4 - 1))
  | .int64, x => decide (intMin 8 < x ∧ x < 2 ^ (8 * 8 - 1))
  | .float32, x => decide (x < 2 ^ (8 * 4)) && !(isNaNBits 4 x)
  | .float64, x => decide (x < 2 ^ (8 * 8)) && !(isNaNBits 8 x)
  | .date, d => decide (d.day < 256 ∧ d.month < 256 ∧ intMin 2 ≤ d.year ∧
      d.year < 2 ^ 15 ∧ d.year ≠ -1)
  | .time, t => decide (t < nanosPerDay ∧ t % 1000000 = 0)
  | .datetime, d => decide (d.ms < 1000 ∧ d.second < 60 ∧ d.minute < 60 ∧
      d.hour < 24 ∧ d.day < 256 ∧ d.month < 256 ∧ intMin 2 ≤ d.year ∧
      d.year < 2 ^ 15 ∧ d.year ≠ -1)
  | .string, bs => decide (0 ∉ bs ∧ bs ≠ [0x80])
  | .binary, bs => decide (bs.length < 0xFFFFFFFFFFFFFFFF)
  | _, _ => false

def validCol (d : Dtype) (col : List (Option d.Value)) : Bool :=
  col.all fun v => v.all (validElem d)

theorem validCol_forall (d : Dtype) (col : List (Option d.Value))
    (h : validCol d col = true) :
    ∀ v ∈ col, ∀ x ∈ v, validElem d x = true := by
  intro v hv x hx
  rw [validCol, List.all_eq_true] at h
  have h2 := h v hv
  rcases v with _ | a
  · simp at hx
  · rw [Option.mem_def, Option.some.injEq] at hx
    subst hx
    simpa [Option.all] using h2

/-- The dtypes actually covered by the round-trip property (the writer's
supported dtypes, minus the unsigned ones whose null handling is lossy). -/
def roundtripSupported : List Dtype :=
  [.boolean, .int8, .int16, .int32, .int64, .float32, .float64,
   .date, .time, .datetime, .string, .binary]

theorem ok_bind {α β : Type} (x : α) (f : α → Except String β) :
    (Except.ok x : Except String α).bind f = f x := rfl

/-- C1 (amended).  For every column type dispatched by
`write_binary_column_data` — boolean, signed 8/16/32/64-bit integer,
float32/64, date, time, datetime, text and blob, but *not* decimal or
structured/JSON, which the writer rejects — and every column of optional
values containing at least one null whose non-null values are
representable and distinct from the type's null sentinel (strictly above
the minimum signed value for integers, a non-NaN bit pattern for floats,
year ≠ -1 and 16-bit-representable for date/datetime, millisecond
resolution for time/datetime, no NUL byte and not the lone byte 0x80 for
text, length below 2^64-1 for blob), decoding the encoded column with
`read_binary_column_data` yields the original column exactly, nulls
preserved in place. -/
theorem C1_roundtrip_amended (d : Dtype) (col : List (Option d.Value))
    (hd : d ∈ roundtripSupported) (hnull : none ∈ col)
    (hv : validCol d col = true) :
    (write_binary_column_data d col).bind (read_binary_column_data d)
      = Except.ok col := by
  have hall := validCol_forall d col hv
  fin_cases hd
  · -- boolean
    rw [show write_binary_column_data .boolean col
        = .ok (write_boolean_column col) from rfl, ok_bind]
    rw [show read_binary_column_data .boolean (write_boolean_column col)
        = .ok (read_boolean_column (write_boolean_column col)) from rfl]
    rw [read_write_boolean]
  · -- int8
    rw [show write_binary_column_data .int8 col
        = .ok (write_int_column 1 col) from rfl, ok_bind]
    rw [show read_binary_column_data .int8 (write_int_column 1 col)
        = .ok (read_int_column 1 (write_int_column 1 col)) from rfl]
    rw [read_write_int 1 (by norm_num) col
      (fun v hv' x hx => by simpa [validElem] using hall v hv' x hx)]
  · -- int16
    rw [show write_binary_column_data .int16 col
        = .ok (write_int_column 2 col) from rfl, ok_bind]
    rw [show read_binary_column_data .int16 (write_int_column 2 col)
        = .ok (read_int_column 2 (write_int_column 2 col)) from rfl]
    rw [read_write_int 2 (by norm_num) col
      (fun v hv' x hx => by simpa [validElem] using hall v hv' x hx)]
  · -- int32
    rw [show write_binary_column_data .int32 col
        = .ok (write_int_column 4 col) from rfl, ok_bind]
    rw [show read_binary_column_data .int32 (write_int_column 4 col)
        = .ok (read_int_column 4 (write_int_column 4 col)) from rfl]
    rw [read_write_int 4 (by norm_num) col
      (fun v hv' x hx => by simpa [validElem] using hall v hv' x hx)]
  · -- int64
    rw [show write_binary_column_data .int64 col
        = .ok (write_int_column 8 col) from rfl, ok_bind]
    rw [show read_binary_column_data .int64 (write_int_column 8 col)
        = .ok (read_int_column 8 (write_int_column 8 col)) from rfl]
    rw [read_write_int 8 (by norm_num) col
      (fun v hv' x hx => by simpa [validElem] using hall v hv' x hx)]
  · -- float32
    rw [show write_binary_column_data .float32 col
        = .ok (write_float_column 4 col) from rfl, ok_bind]
    rw [show read_binary_column_data .float32 (write_float_column 4 col)
        = .ok (read_float_column 4 (write_float_column 4 col)) from rfl]
    rw [read_write_float 4 (Or.inl rfl) col
      (fun v hv' x hx => by
        have := hall v hv' x hx
        simp only [validElem, Bool.and_eq_true, decide_eq_true_eq,
          Bool.not_eq_true'] at this
        exact this)]
  · -- float64
    rw [show write_binary_column_data .float64 col
        = .ok (write_float_column 8 col) from rfl, ok_bind]
    rw [show read_binary_column_data .float64 (write_float_column 8 col)
        = .ok (read_float_column 8 (write_float_column 8 col)) from rfl]
    rw [read_write_float 8 (Or.inr rfl) col
      (fun v hv' x hx => by
        have := hall v hv' x hx
        simp only [validElem, Bool.and_eq_true, decide_eq_true_eq,
          Bool.not_eq_true'] at this
        exact this)]
  · -- date
    rw [show write_binary_column_data .date col
        = .ok (write_date_column col) from rfl, ok_bind]
    rw [show read_binary_column_data .date (write_date_column col)
        = .ok (read_date_column (write_date_column col)) from rfl]
    rw [read_write_date col
      (fun v hv' x hx => by simpa [validElem] using hall v hv' x hx)]
  · -- time
    rw [show write_binary_column_data .time col
        = .ok (write_time_column col) from rfl, ok_bind]
    rw [show read_binary_column_data .time (write_time_column col)
        = .ok (read_time_column (write_time_column col)) from rfl]
    rw [read_write_time col
      (fun v hv' x hx => by simpa [validElem] using hall v hv' x hx)]
  · -- datetime
    rw [show write_binary_column_data .datetime col
        = .ok (write_datetime_column col) from rfl, ok_bind]
    rw [show read_binary_column_data .datetime (write_datetime_column col)
        = .ok (read_datetime_column (write_datetime_column col)) from rfl]
    rw [read_write_datetime col
      (fun v hv' x hx => by simpa [validElem] using hall v hv' x hx)]
  · -- string
    rw [show write_binary_column_data .string col
        = .ok (write_string_column col) from rfl, ok_bind]
    rw [show read_binary_column_data .string (write_string_column col)
        = .ok (read_string_column (write_string_column col)) from rfl]
    rw [read_write_string col
      (fun v hv' x hx => by simpa [validElem] using hall v hv' x hx)]
  · -- binary
    rw [show write_binary_column_data .binary col
        = .ok (write_blob_column col) from rfl, ok_bind]
    rw [show read_binary_column_data .binary (write_blob_column col)
        = read_blob_column (write_blob_column col) from rfl]
    rw [read_write_blob col
      (fun v hv' x hx => by simpa [validElem] using hall v hv' x hx)]

theorem C1_roundtrip_amended_witness :
    (write_binary_column_data .int8 [some 1, none]).bind
      (read_binary_column_data .int8) = Except.ok [some 1, none] :=
  C1_roundtrip_amended .int8 [some 1, none] (by decide) (by decide) (by decide)

/-- C1 counterexample.  The claim quantifies over *every* column of
optional values: the 8-bit signed integer column `[Some(-128), None]`
contains a null, yet the encode/decode round trip returns
`[None, None]`, because the non-null value -128 coincides with the null
sentinel (`np.iinfo(int8).min`) that `write_numeric_column` uses for
nulls and `read_numeric_column` maps back to null.  (Decimal and
structured/JSON columns, also listed by the claim, are rejected by
`write_binary_column_data` outright.) -/
theorem C1_roundtrip_counterexample :
    (write_binary_column_data .int8 [some (-128), none]).bind
        (read_binary_column_data .int8) = Except.ok [none, none] ∧
      (([none, none] : List (Option Int)) ≠ [some (-128), none]) := by
  constructor
  · rfl
  · decide

/-- C2.  Encoding the 3-row 8-bit signed integer column
`[Some(1), None, Some(-5)]` produces exactly the bytes
`0x01, 0x80, 0xFB` (null becomes the two's-complement minimum -128 =
0x80, -5 becomes 0xFB), and decoding those three bytes reproduces
`[Some(1), None, Some(-5)]`. -/
theorem C2_int8_example :
    write_binary_column_data .int8 [some 1, none, some (-5)]
        = Except.ok [0x01, 0x80, 0xFB] ∧
      read_binary_column_data .int8 [0x01, 0x80, 0xFB]
        = Except.ok [some 1, none, some (-5)] := by
  exact ⟨rfl, rfl⟩

/-- C3.  In text decode a record whose body is exactly the byte 0x80
before its 0x00 terminator is null and never a one-byte string, while a
record whose body begins with 0x80 followed by further bytes decodes as a
non-null value starting with that byte; encoding a null emits exactly
`0x80 0x00` and encoding the empty string emits only the terminator. -/
theorem C3_text_null_sentinel :
    read_string_column [0x80, 0x00] = [none] ∧
      (∀ rest : List Nat, rest ≠ [] → 0 ∉ rest →
        read_string_column (0x80 :: rest ++ [0]) = [some (0x80 :: rest)]) ∧
      write_string_column [none] = [0x80, 0x00] ∧
      write_string_column [some []] = [0x00] := by
  refine ⟨rfl, ?_, rfl, rfl⟩
  intro rest hne hz
  unfold read_string_column
  rw [show (0x80 :: rest ++ [0]) = (0x80 :: rest) ++ 0 :: [] from rfl]
  rw [splitRecords_append (0x80 :: rest) (by
    intro h
    rcases List.mem_cons.mp h with h | h
    · omega
    · exact hz h) []]
  rw [show splitRecords [] [] = [] from rfl]
  rw [List.map_cons, List.map_nil]
  rw [if_neg (by
    intro h
    apply hne
    have := congrArg List.length h
    simpa using this)]
  rfl

theorem C3_text_null_sentinel_witness :
    read_string_column [0x80, 0x41, 0x00] = [some [0x80, 0x41]] :=
  C3_text_null_sentinel.2.1 [0x41] (by decide) (by decide)

/-- C4.  Decimal precision 10-18 encodes with 64-bit signed storage
(1-2 digits use 8-bit, 3-4 use 16-bit, 5-9 use 32-bit); precision 19
makes `decimal_numpy_dtype` raise, and `write_decimal_column` computes
the width before scaling or writing anything, so a `Decimal(19, s)`
column fails at encode time with the unsupported-precision error and no
bytes are produced — never a silent truncation to 18 digits. -/
theorem C4_decimal_precision :
    (∀ p, 10 ≤ p → p ≤ 18 → decimal_numpy_dtype p = .ok 8) ∧
      (∀ p, 1 ≤ p → p ≤ 2 → decimal_numpy_dtype p = .ok 1) ∧
      (∀ p, 3 ≤ p → p ≤ 4 → decimal_numpy_dtype p = .ok 2) ∧
      (∀ p, 5 ≤ p → p ≤ 9 → decimal_numpy_dtype p = .ok 4) ∧
      (∀ p s col, 10 ≤ p → p ≤ 18 →
        write_decimal_column p s col
          = .ok (write_int_column 8
              (col.map (Option.map fun v => truncTowardZero (v * 10 ^ s))))) ∧
      (∀ s col, write_decimal_column 19 s col
          = .error "Decimal precision too large for integer-based encoding (needs 16 bytes)") := by
  have hw : ∀ p, 10 ≤ p → p ≤ 18 → decimal_numpy_dtype p = .ok 8 := by
    intro p h10 h18
    rw [decimal_numpy_dtype_ok p (by omega) h18]
    unfold decimalWidth
    rw [if_neg (by omega), if_neg (by omega), if_neg (by omega)]
  refine ⟨hw, ?_, ?_, ?_, ?_, ?_⟩
  · intro p h1 h2
    rw [decimal_numpy_dtype_ok p h1 (by omega)]
    unfold decimalWidth
    rw [if_pos (by omega)]
  · intro p h3 h4
    rw [decimal_numpy_dtype_ok p (by omega) (by omega)]
    unfold decimalWidth
    rw [if_neg (by omega), if_pos (by omega)]
  · intro p h5 h9
    rw [decimal_numpy_dtype_ok p (by omega) (by omega)]
    unfold decimalWidth
    rw [if_neg (by omega), if_neg (by omega), if_pos (by omega)]
  · intro p s col h10 h18
    unfold write_decimal_column
    rw [hw p h10 h18]
  · intro s col
    rfl

theorem C4_decimal_precision_witness :
    decimal_numpy_dtype 18 = .ok 8 ∧
      write_decimal_column 19 3 [some (5 : Rat)]
        = .error "Decimal precision too large for integer-based encoding (needs 16 bytes)" :=
  ⟨C4_decimal_precision.1 18 (by norm_num) (by norm_num),
    C4_decimal_precision.2.2.2.2.2 3 [some (5 : Rat)]⟩

/-- C5.  Decimal encode stores `truncTowardZero(v * 10^scale)` — the
truncation rounds toward zero (it equals the floor for nonnegative and
the ceiling for negative scaled values, so its magnitude never exceeds
the scaled value and differs from it by less than one: precision beyond
the declared scale is dropped, never rounded to nearest) — and decode
divides the recovered fixed-width integer by `10^scale` in exact
(base-10 / rational) arithmetic, so every representable scaled value
round-trips exactly. -/
theorem C5_decimal_scaling :
    (∀ q : Rat, truncTowardZero q = if 0 ≤ q then ⌊q⌋ else ⌈q⌉) ∧
      (∀ q : Rat, |((truncTowardZero q : Int) : Rat)| ≤ |q| ∧
        |q| < |((truncTowardZero q : Int) : Rat)| + 1) ∧
      (∀ p s (data : List Nat), 1 ≤ p → p ≤ 18 →
        read_decimal_column p s data
          = .ok ((read_int_column (decimalWidth p) data).map
              (Option.map fun n : Int => ((n : Rat) / 10 ^ s : Rat)))) ∧
      (∀ p s (col : List (Option Rat)), 1 ≤ p → p ≤ 18 →
        (∀ v ∈ col, ∀ q ∈ v, (q * 10 ^ s).den = 1 ∧
          intMin (decimalWidth p) < (q * 10 ^ s).num ∧
          (q * 10 ^ s).num < 2 ^ (8 * decimalWidth p - 1)) →
        (write_decimal_column p s col).bind (read_decimal_column p s)
          = Except.ok col) := by
  refine ⟨truncTowardZero_eq_floor_or_ceil, ?_, ?_, ?_⟩
  · intro q
    rw [truncTowardZero_eq_floor_or_ceil]
    by_cases hq : 0 ≤ q
    · rw [if_pos hq]
      have h1 : ((⌊q⌋ : Int) : Rat) ≤ q := Int.floor_le q
      have h2 : q < ⌊q⌋ + 1 := Int.lt_floor_add_one q
      have h0 : (0 : Int) ≤ ⌊q⌋ := Int.floor_nonneg.mpr hq
      rw [abs_of_nonneg hq, abs_of_nonneg (by exact_mod_cast h0)]
      exact ⟨h1, h2⟩
    · rw [if_neg hq]
      push_neg at hq
      have h1 : q ≤ ((⌈q⌉ : Int) : Rat) := Int.le_ceil q
      have h2 : ((⌈q⌉ : Int) : Rat) < q + 1 := Int.ceil_lt_add_one q
      have hc : ⌈q⌉ ≤ 0 := Int.ceil_le.mpr (by exact_mod_cast le_of_lt hq)
      rw [abs_of_nonpos (le_of_lt hq), abs_of_nonpos (by exact_mod_cast hc)]
      constructor
      · linarith
      · linarith
  · intro p s data h1 h18
    unfold read_decimal_column
    rw [decimal_numpy_dtype_ok p h1 h18]
  · intro p s col h1 h18 hvals
    exact read_write_decimal p s h1 h18 col hvals

theorem C5_decimal_scaling_witness :
    (write_decimal_column 18 2 [some ((5 : Rat) / 4 + 1), none]).bind
      (read_decimal_column 18 2) = Except.ok [some ((5 : Rat) / 4 + 1), none] :=
  C5_decimal_scaling.2.2.2 18 2 [some ((5 : Rat) / 4 + 1), none]
    (by norm_num) (by norm_num)
    (by
      intro v hv q hq
      simp only [List.mem_cons, List.not_mem_nil, or_false] at hv
      rcases hv with rfl | rfl
      · rw [Option.mem_def, Option.some.injEq] at hq
        subst hq
        refine ⟨by norm_num, ?_, ?_⟩
        · have h225 : ((5 / 4 + 1 : Rat) * 10 ^ 2).num = 225 := by norm_num
          rw [h225]
          norm_num [intMin, decimalWidth]
        · have h225 : ((5 / 4 + 1 : Rat) * 10 ^ 2).num = 225 := by norm_num
          rw [h225]
          norm_num [decimalWidth]
      · simp at hq)

/-! ### Staging-directory transfer control flow

`fetch_binary` (`fetch.py` lines 256-297) and `insert` (`insert.py`
lines 247-284) both create the staging directory (`temp_dir.mkdir()`),
run the fallible transfer stages inside `try:` and call
`shutil.rmtree(temp_dir)` in `finally:`.  The model abstracts each
fallible stage to its outcome (`Except String Unit`) and passes the
"staging directory exists" flag explicitly.  Python `try/finally`
semantics: the finally block always runs; if it raises, its exception
replaces the in-flight one. -/

def seqAll : List (Except String Unit) → Except String Unit
  | [] => .ok ()
  | r :: rs => r.bind fun _ => seqAll rs

/-- `shutil.rmtree(temp_dir)`: on success the directory is gone; on
failure it remains and the call raises. -/
def shutil_rmtree (res : Except String Unit) (dirExists : Bool) :
    Bool × Except String Unit :=
  match res with
  | .ok _ => (false, .ok ())
  | .error e => (dirExists, .error e)

/-- Python `try/finally`: run the body, then the finally block; an
exception raised by the finally block replaces the body's outcome. -/
def pyTryFinally {α : Type} (body : Except String α)
    (cleanup : Except String Unit) : Except String α :=
  match cleanup with
  | .error e => .error e
  | .ok _ => body

/-- One `fetch_binary` export run after schema resolution:
`temp_dir.mkdir()`, then `try:` the wire COPY command followed by the
per-column `read_binary_column_data` calls, `finally: shutil.rmtree`.
Returns the propagated outcome and whether the staging directory still
exists. -/
def fetch_binary_run (copyRes : Except String Unit)
    (decodeResults : List (Except String Unit))
    (rmtreeRes : Except String Unit) : Except String Unit × Bool :=
  let dirExists := true
  let body := copyRes.bind fun _ => seqAll decodeResults
  let cleaned := shutil_rmtree rmtreeRes dirExists
  (pyTryFinally body cleaned.2, cleaned.1)

/-- One `insert` import run after `create_table`: `temp_dir.mkdir()`,
then `try:` the per-column `write_binary_column_data` calls, the wire
COPY command and the commit, `finally: shutil.rmtree`. -/
def insert_run (writeResults : List (Except String Unit))
    (copyRes commitRes rmtreeRes : Except String Unit) :
    Except String Unit × Bool :=
  let dirExists := true
  let body := (seqAll writeResults).bind fun _ =>
    copyRes.bind fun _ => commitRes
  let cleaned := shutil_rmtree rmtreeRes dirExists
  (pyTryFinally body cleaned.2, cleaned.1)

/-- C6.  For every combination of stage outcomes in an export
(`fetch_binary`) or import (`insert`) transfer, the staging directory is
removed on every exit path (the `finally` always runs `rmtree`), and the
outcome that propagates to the caller is exactly the first failing
stage's error — in particular a wire-COPY failure propagates unchanged —
with the directory already gone. -/
theorem C6_staging_cleanup (copyRes commitRes : Except String Unit)
    (decodeResults writeResults : List (Except String Unit)) :
    ((fetch_binary_run copyRes decodeResults (.ok ())).2 = false) ∧
      ((insert_run writeResults copyRes commitRes (.ok ())).2 = false) ∧
      (∀ e, copyRes = .error e →
        (fetch_binary_run copyRes decodeResults (.ok ())).1 = .error e) ∧
      ((fetch_binary_run copyRes decodeResults (.ok ())).1
        = copyRes.bind fun _ => seqAll decodeResults) ∧
      ((insert_run writeResults copyRes commitRes (.ok ())).1
        = (seqAll writeResults).bind fun _ =>
            copyRes.bind fun _ => commitRes) := by
  refine ⟨rfl, rfl, ?_, rfl, rfl⟩
  intro e he
  subst he
  rfl

theorem C6_staging_cleanup_witness :
    (fetch_binary_run (.error "wire command failed") [] (.ok ())).1
        = .error "wire command failed" ∧
      (fetch_binary_run (.error "wire command failed") [] (.ok ())).2 = false :=
  ⟨(C6_staging_cleanup (.error "wire command failed") (.ok ()) [] []).2.2.1
      "wire command failed" rfl,
    (C6_staging_cleanup (.error "wire command failed") (.ok ()) [] []).1⟩

/-- C7 counterexample.  A wire-command failure followed by a failing
`shutil.rmtree` in the `finally` block propagates the *cleanup* error,
not the original stage error, and leaves the staging directory behind:
the source has no log-and-suppress around `rmtree`, so Python's
`try/finally` semantics replace the in-flight exception. -/
theorem C7_cleanup_masking_counterexample :
    fetch_binary_run (.error "wire command failed") [] (.error "rmtree failed")
      = (.error "rmtree failed", true) := rfl

/-- C7 (amended).  When the staging cleanup itself fails, the cleanup
error is what propagates to the caller (masking any stage error, per
Python `try/finally`); the original stage error is propagated exactly
when the cleanup succeeds. -/
theorem C7_cleanup_masking_amended (copyRes commitRes : Except String Unit)
    (decodeResults writeResults : List (Except String Unit)) :
    (∀ e2, (fetch_binary_run copyRes decodeResults (.error e2)).1
        = .error e2) ∧
      (∀ e2, (insert_run writeResults copyRes commitRes (.error e2)).1
        = .error e2) ∧
      ((fetch_binary_run copyRes decodeResults (.ok ())).1
        = copyRes.bind fun _ => seqAll decodeResults) ∧
      ((insert_run writeResults copyRes commitRes (.ok ())).1
        = (seqAll writeResults).bind fun _ =>
            copyRes.bind fun _ => commitRes) :=
  ⟨fun _ => rfl, fun _ => rfl, rfl, rfl⟩

theorem splitRecords_no_zero (l : List Nat) (h : 0 ∉ l) (acc : List Nat) :
    splitRecords acc l = [] := by
  induction l generalizing acc with
  | nil => rfl
  | cons b rest ih =>
      have hb : b ≠ 0 := fun hb0 => h (hb0 ▸ List.mem_cons_self b rest)
      have hr : 0 ∉ rest := fun hr0 => h (List.mem_cons_of_mem b hr0)
      simp only [splitRecords, hb, if_false]
      exact ih hr (b :: acc)

/-- C8 counterexample.  The text file `0x61 0x00 0x62` ends with an
unterminated record (the byte `0x62` has no `0x00` terminator before the
end of the file), yet `read_string_column` raises nothing and returns
the one terminated record — the trailing bytes are silently dropped,
where the claim requires a fatal `CorruptData` error and no values. -/
theorem C8_bounds_counterexample :
    read_string_column [0x61, 0x00, 0x62] = [some [0x61]] := rfl

/-- C8 (amended).  Blob decode is bound-checked: a record whose 8-byte
length prefix declares more payload than remains in the file raises the
fatal decode error and yields no values.  Text decode, however, never
bound-checks a missing terminator: any non-empty `0x00`-free trailing
byte run after the last terminated record is silently ignored and the
terminated records are returned without error. -/
theorem C8_bounds_amended :
    (∀ data : List Nat, 8 ≤ data.length →
      fromLEBytes (data.take 8) ≠ 0xFFFFFFFFFFFFFFFF →
      data.length - 8 < fromLEBytes (data.take 8) →
      read_blob_column data
        = .error "File ends prematurely while reading blob data") ∧
      (∀ (col : List (Option (List Nat))) (tail : List Nat),
        (∀ v ∈ col, ∀ bs ∈ v, 0 ∉ bs ∧ bs ≠ [0x80]) → tail ≠ [] →
        0 ∉ tail →
        read_string_column (write_string_column col ++ tail) = col) := by
  constructor
  · intro data h8 hs hlen
    unfold read_blob_column
    cases hn : data.length with
    | zero => omega
    | succ m =>
        simp only [readBlobGo]
        rw [if_neg (by omega)]
        rw [if_neg hs]
        rw [if_pos (by rw [List.length_drop]; omega)]
  · intro col tail hcol htne htz
    induction col with
    | nil =>
        unfold write_string_column read_string_column
        rw [List.flatMap_nil, List.nil_append,
          splitRecords_no_zero tail htz [], List.map_nil]
    | cons v rest ih =>
        have hrest : ∀ v ∈ rest, ∀ bs ∈ v, 0 ∉ bs ∧ bs ≠ [0x80] :=
          fun v hv => hcol v (List.mem_cons_of_mem _ hv)
        rcases v with _ | bs
        · unfold write_string_column at *
          rw [List.flatMap_cons]
          unfold read_string_column at *
          rw [show ((STRING_NULL_MARKER ++ rest.flatMap fun v =>
              match v with
              | none => STRING_NULL_MARKER
              | some bs => bs ++ [0]) ++ tail)
              = [0x80] ++ 0 :: ((rest.flatMap fun v =>
              match v with
              | none => STRING_NULL_MARKER
              | some bs => bs ++ [0]) ++ tail) from by
            simp [STRING_NULL_MARKER]]
          rw [splitRecords_append [0x80] (by decide) []]
          rw [List.map_cons, ih hrest]
          simp
        · obtain ⟨hz, hne⟩ := hcol (some bs) (List.mem_cons_self _ _) bs rfl
          unfold write_string_column at *
          rw [List.flatMap_cons]
          unfold read_string_column at *
          rw [show (((bs ++ [0]) ++ rest.flatMap fun v =>
              match v with
              | none => STRING_NULL_MARKER
              | some bs => bs ++ [0]) ++ tail)
              = bs ++ 0 :: ((rest.flatMap fun v =>
              match v with
              | none => STRING_NULL_MARKER
              | some bs => bs ++ [0]) ++ tail) from by simp]
          rw [splitRecords_append bs hz []]
          rw [List.map_cons, ih hrest]
          simp [hne]

theorem C8_bounds_amended_witness :
    read_blob_column (toLEBytes 8 5 ++ [1, 2])
        = .error "File ends prematurely while reading blob data" ∧
      read_string_column (write_string_column [some [0x61]] ++ [0x62])
        = [some [0x61]] :=
  ⟨C8_bounds_amended.1 (toLEBytes 8 5 ++ [1, 2]) (by decide) (by decide)
      (by decide),
    C8_bounds_amended.2 [some [0x61]] [0x62]
      (by
        intro v hv bs hbs
        simp only [List.mem_cons, List.not_mem_nil, or_false] at hv
        subst hv
        rw [Option.mem_def, Option.some.injEq] at hbs
        subst hbs
        exact ⟨by decide, by decide⟩)
      (by decide) (by decide)⟩

/-- C10.  An 8-byte time record decodes to null exactly when its
millisecond field is `0xFFFFFFFF` or its seconds field is ≥ 60 or its
minutes field is ≥ 60 or its hours field is ≥ 24 — every out-of-range
record decodes to null, not only the exact sentinel record — and a
record with all four fields in range decodes to the non-null nanosecond
value they denote. -/
theorem C10_time_null_classification (ms s m h pad : Nat)
    (hms : ms < 2 ^ 32) (hs : s < 256) (hm : m < 256) (hh : h < 256)
    (hpad : pad < 256) :
    (read_time_column (toLEBytes 4 ms ++ [s, m, h, pad]) = [none] ↔
        (ms = 0xFFFFFFFF ∨ 60 ≤ s ∨ 60 ≤ m ∨ 24 ≤ h)) ∧
      (¬ (ms = 0xFFFFFFFF ∨ 60 ≤ s ∨ 60 ≤ m ∨ 24 ≤ h) →
        read_time_column (toLEBytes 4 ms ++ [s, m, h, pad])
          = [some ((h * 3600000 + m * 60000 + s * 1000 + ms) * 1000000)]) := by
  have hlen : (toLEBytes 4 ms ++ [s, m, h, pad]).length = 8 := by
    simp [toLEBytes_length]
  have hchunks : chunks 8 (toLEBytes 4 ms ++ [s, m, h, pad])
      = [toLEBytes 4 ms ++ [s, m, h, pad]] := by
    have hap := chunks_append 8 (by norm_num)
      (toLEBytes 4 ms ++ [s, m, h, pad]) [] hlen
    simpa using hap
  have hrec := read_time_record_bytes ms s m h pad hms
  have hcol : read_time_column (toLEBytes 4 ms ++ [s, m, h, pad])
      = [read_time_record (toLEBytes 4 ms ++ [s, m, h, pad])] := by
    unfold read_time_column
    rw [hchunks, List.map_cons, List.map_nil]
  constructor
  · constructor
    · intro hnull
      by_contra hcond
      rw [hcol, hrec, if_neg hcond] at hnull
      simp at hnull
    · intro hcond
      rw [hcol, hrec, if_pos hcond]
  · intro hcond
    rw [hcol, hrec, if_neg hcond]

theorem C10_time_null_classification_witness :
    read_time_column (toLEBytes 4 500 ++ [1, 2, 3, 0])
        = [some 10921500000000] ∧
      read_time_column (toLEBytes 4 500 ++ [61, 2, 3, 0]) = [none] :=
  ⟨by
      have hr := (C10_time_null_classification 500 1 2 3 0 (by decide)
        (by decide) (by decide) (by decide) (by decide)).2 (by decide)
      simpa using hr,
    (C10_time_null_classification 500 61 2 3 0 (by decide) (by decide)
        (by decide) (by decide) (by decide)).1.mpr (by decide)⟩

/-! ### Probe-row query rewrite

`get_limit_query` (`tsdb_benchmarks/dbs/monetdb/utils.py` lines 170-175):
`query.rstrip().rstrip(";")`, then
`re.sub(r"\s+limit\s+\d+\s*$", "", query, flags=re.IGNORECASE)`, then
append `" limit 1"`.  Queries are modelled as `List Char`; the `\s`
class is modelled by the ASCII whitespace characters. -/

def isPySpace (c : Char) : Bool :=
  c == ' ' || c == '\t' || c == '\n' || c == '\r' || c == '\x0b' || c == '\x0c'

def isAsciiDigit (c : Char) : Bool := '0' ≤ c && c ≤ '9'

/-- `str.rstrip()`: remove trailing whitespace. -/
def rstripWs (s : List Char) : List Char :=
  (s.reverse.dropWhile isPySpace).reverse

/-- `str.rstrip(";")`: remove trailing semicolons. -/
def rstripSemi (s : List Char) : List Char :=
  (s.reverse.dropWhile (fun c => c == ';')).reverse

/-- The `\s+\d+\s*` part of the pattern, matched against the bytes
after the literal `limit`. -/
def limitDigitsTail (rest : List Char) : Bool :=
  let s2 := rest.dropWhile isPySpace
  if s2.length = rest.length then false
  else
    let s3 := s2.dropWhile isAsciiDigit
    if s3.length = s2.length then false
    else s3.all isPySpace

/-- The `limit\s+\d+\s*` part of the pattern (case-insensitive). -/
def limitWord (s1 : List Char) : Bool :=
  match s1 with
  | l :: i :: m :: i2 :: t :: rest =>
      if l.toLower = 'l' ∧ i.toLower = 'i' ∧ m.toLower = 'm' ∧
          i2.toLower = 'i' ∧ t.toLower = 't' then limitDigitsTail rest
      else false
  | _ => false

/-- Whether a string matches the whole regex `\s+limit\s+\d+\s*`
(case-insensitive), i.e. whether the regex matches at this start
position and runs to `$`.  The character classes at each boundary are
disjoint, so the greedy deterministic scan is the regex semantics. -/
def matchesLimitSuffix (s : List Char) : Bool :=
  let s1 := s.dropWhile isPySpace
  if s1.length = s.length then false else limitWord s1

/-- `re.sub(pattern, "", query)` for a `$`-anchored pattern: delete from
the leftmost position whose suffix matches the pattern (there is at most
one match since every match ends at the end of the string). -/
def re_sub_trailing_limit (s : List Char) : List Char :=
  match (List.range (s.length + 1)).find?
      (fun i => matchesLimitSuffix (s.drop i)) with
  | some i => s.take i
  | none => s

def get_limit_query (s : List Char) : List Char :=
  re_sub_trailing_limit (rstripSemi (rstripWs s)) ++ (" limit 1").toList

/-- Modelled from the spec's words for the probe-row rewrite: parse the
*reversed* query as optional whitespace, then one or more digits, then
whitespace, then "limit" (case-insensitive), then the preceding
whitespace run; on success return the reversed remainder (the query with
the trailing row-limit clause stripped), otherwise `none`. -/
def revLimitWord (r3 : List Char) : Option (List Char) :=
  match r3 with
  | t :: i :: m :: i2 :: l :: rest =>
      if t.toLower = 't' ∧ i.toLower = 'i' ∧ m.toLower = 'm' ∧
          i2.toLower = 'i' ∧ l.toLower = 'l' then
        let r4 := rest.dropWhile isPySpace
        if r4.length = rest.length then none else some r4
      else none
  | _ => none

def revLimitSplit (r : List Char) : Option (List Char) :=
  let r1 := r.dropWhile isPySpace
  let r2 := r1.dropWhile isAsciiDigit
  if r2.length = r1.length then none
  else
    let r3 := r2.dropWhile isPySpace
    if r3.length = r2.length then none
    else revLimitWord r3

/-- The claim's description of the rewrite, stated independently of the
regex machinery: strip any trailing row-limit clause of the form
`LIMIT <digits>` (case-insensitive, preceded by whitespace, optionally
followed by trailing whitespace). -/
def stripTrailingLimitClause (s : List Char) : List Char :=
  match revLimitSplit s.reverse with
  | some r4 => r4.reverse
  | none => s

def get_limit_query_spec (s : List Char) : List Char :=
  stripTrailingLimitClause (rstripSemi (rstripWs s)) ++ (" limit 1").toList

theorem isPySpace_cases (c : Char) (h : isPySpace c = true) :
    c = ' ' ∨ c = '\t' ∨ c = '\n' ∨ c = '\r' ∨ c = '\x0b' ∨ c = '\x0c' := by
  unfold isPySpace at h
  simp only [Bool.or_eq_true, beq_iff_eq] at h
  tauto

theorem space_toLower_ne (c : Char) (h : isPySpace c = true) :
    c.toLower ≠ 'l' ∧ c.toLower ≠ 't' := by
  rcases isPySpace_cases c h with rfl | rfl | rfl | rfl | rfl | rfl <;>
    exact ⟨by decide, by decide⟩

theorem space_not_digit (c : Char) (h : isPySpace c = true) :
    isAsciiDigit c = false := by
  rcases isPySpace_cases c h with rfl | rfl | rfl | rfl | rfl | rfl <;> decide

theorem digit_not_space (c : Char) (h : isAsciiDigit c = true) :
    isPySpace c = false := by
  by_contra hc
  rw [Bool.not_eq_false] at hc
  rw [space_not_digit c hc] at h
  cases h

theorem dropWhile_append_all {p : Char → Bool} (xs ys : List Char)
    (h : ∀ x ∈ xs, p x = true) :
    (xs ++ ys).dropWhile p = ys.dropWhile p := by
  induction xs with
  | nil => rfl
  | cons a l ih =>
      rw [List.cons_append, List.dropWhile_cons_of_pos
        (h a (List.mem_cons_self a l))]
      exact ih fun x hx => h x (List.mem_cons_of_mem a hx)

theorem dropWhile_of_all_neg {p : Char → Bool} (l : List Char)
    (h : ∀ x ∈ l, p x = false) : l.dropWhile p = l := by
  cases l with
  | nil => rfl
  | cons a t =>
      rw [List.dropWhile_cons_of_neg]
      rw [h a (List.mem_cons_self a t)]
      exact Bool.false_ne_true

theorem takeWhile_all {p : Char → Bool} (l : List Char) :
    ∀ x ∈ l.takeWhile p, p x = true :=
  fun _ hx => List.mem_takeWhile_imp hx

theorem takeWhile_reverse_all {p : Char → Bool} (l : List Char) :
    ∀ x ∈ (l.takeWhile p).reverse, p x = true :=
  fun x hx => takeWhile_all l x (List.mem_reverse.mp hx)

theorem takeWhile_dropWhile_decomp (p : Char → Bool) (l : List Char) :
    l = l.takeWhile p ++ l.dropWhile p :=
  (List.takeWhile_append_dropWhile p l).symm

theorem takeWhile_length_add (p : Char → Bool) (l : List Char) :
    (l.takeWhile p).length + (l.dropWhile p).length = l.length := by
  conv_rhs => rw [takeWhile_dropWhile_decomp p l]
  rw [List.length_append]

theorem takeWhile_ne_nil_of_length {p : Char → Bool} (l : List Char)
    (h : (l.dropWhile p).length ≠ l.length) : l.takeWhile p ≠ [] := by
  intro hnil
  have := takeWhile_length_add p l
  rw [hnil] at this
  simp at this
  exact h this

theorem find_range'_eq_some (p : Nat → Bool) (a k i : Nat)
    (h1 : a ≤ i) (h2 : i < a + k) (hp : p i = true)
    (hmin : ∀ j, a ≤ j → j < i → p j = false) :
    (List.range' a k).find? p = some i := by
  induction k generalizing a with
  | zero => omega
  | succ k ih =>
      rw [List.range'_succ, List.find?_cons]
      by_cases ha : a = i
      · subst ha
        rw [hp]
      · have hpa : p a = false := hmin a le_rfl (by omega)
        rw [hpa]
        exact ih (a + 1) (by omega) (by omega)
          (fun j hj1 hj2 => hmin j (by omega) hj2)

theorem find_range_eq_some (p : Nat → Bool) (n i : Nat)
    (h2 : i < n) (hp : p i = true)
    (hmin : ∀ j, j < i → p j = false) :
    (List.range n).find? p = some i := by
  rw [List.range_eq_range']
  exact find_range'_eq_some p 0 n i (Nat.zero_le i) (by omega) hp
    (fun j _ hj => hmin j hj)

theorem matchesLimitSuffix_eq (s : List Char) :
    matchesLimitSuffix s
      = if (s.dropWhile isPySpace).length = s.length then false
        else limitWord (s.dropWhile isPySpace) := rfl

theorem limitWord_cons (l i m i2 t : Char) (rest : List Char) :
    limitWord (l :: i :: m :: i2 :: t :: rest)
      = if l.toLower = 'l' ∧ i.toLower = 'i' ∧ m.toLower = 'm' ∧
            i2.toLower = 'i' ∧ t.toLower = 't' then limitDigitsTail rest
        else false := rfl

theorem limitDigitsTail_eq (rest : List Char) :
    limitDigitsTail rest
      = if (rest.dropWhile isPySpace).length = rest.length then false
        else if ((rest.dropWhile isPySpace).dropWhile isAsciiDigit).length
            = (rest.dropWhile isPySpace).length then false
        else ((rest.dropWhile isPySpace).dropWhile isAsciiDigit).all
          isPySpace := rfl

theorem revLimitWord_cons (t i m i2 l : Char) (rest : List Char) :
    revLimitWord (t :: i :: m :: i2 :: l :: rest)
      = if t.toLower = 't' ∧ i.toLower = 'i' ∧ m.toLower = 'm' ∧
            i2.toLower = 'i' ∧ l.toLower = 'l' then
          if (rest.dropWhile isPySpace).length = rest.length then none
          else some (rest.dropWhile isPySpace)
        else none := rfl

theorem revLimitSplit_eq (r : List Char) :
    revLimitSplit r
      = if ((r.dropWhile isPySpace).dropWhile isAsciiDigit).length
            = (r.dropWhile isPySpace).length then none
        else if (((r.dropWhile isPySpace).dropWhile
              isAsciiDigit).dropWhile isPySpace).length
            = ((r.dropWhile isPySpace).dropWhile isAsciiDigit).length then
          none
        else revLimitWord (((r.dropWhile isPySpace).dropWhile
          isAsciiDigit).dropWhile isPySpace) := rfl

theorem revLimitWord_some (r3 r4 : List Char)
    (h : revLimitWord r3 = some r4) :
    ∃ t i m i2 l rest, r3 = t :: i :: m :: i2 :: l :: rest ∧
      t.toLower = 't' ∧ i.toLower = 'i' ∧ m.toLower = 'm' ∧
      i2.toLower = 'i' ∧ l.toLower = 'l' ∧
      (rest.dropWhile isPySpace).length ≠ rest.length ∧
      r4 = rest.dropWhile isPySpace := by
  rcases r3 with _ | ⟨t, _ | ⟨i, _ | ⟨m, _ | ⟨i2, _ | ⟨l, rest⟩⟩⟩⟩⟩
  · simp [revLimitWord] at h
  · simp [revLimitWord] at h
  · simp [revLimitWord] at h
  · simp [revLimitWord] at h
  · simp [revLimitWord] at h
  · rw [revLimitWord_cons] at h
    by_cases hlet : t.toLower = 't' ∧ i.toLower = 'i' ∧ m.toLower = 'm' ∧
        i2.toLower = 'i' ∧ l.toLower = 'l'
    · rw [if_pos hlet] at h
      by_cases hlen : (rest.dropWhile isPySpace).length = rest.length
      · rw [if_pos hlen] at h; cases h
      · rw [if_neg hlen] at h
        rw [Option.some.injEq] at h
        exact ⟨t, i, m, i2, l, rest, rfl, hlet.1, hlet.2.1, hlet.2.2.1,
          hlet.2.2.2.1, hlet.2.2.2.2, hlen, h.symm⟩
    · rw [if_neg hlet] at h; cases h

theorem limitWord_true (s1 : List Char) (h : limitWord s1 = true) :
    ∃ l i m i2 t rest, s1 = l :: i :: m :: i2 :: t :: rest ∧
      l.toLower = 'l' ∧ i.toLower = 'i' ∧ m.toLower = 'm' ∧
      i2.toLower = 'i' ∧ t.toLower = 't' ∧ limitDigitsTail rest = true := by
  rcases s1 with _ | ⟨l, _ | ⟨i, _ | ⟨m, _ | ⟨i2, _ | ⟨t, rest⟩⟩⟩⟩⟩
  · simp [limitWord] at h
  · simp [limitWord] at h
  · simp [limitWord] at h
  · simp [limitWord] at h
  · simp [limitWord] at h
  · rw [limitWord_cons] at h
    by_cases hlet : l.toLower = 'l' ∧ i.toLower = 'i' ∧ m.toLower = 'm' ∧
        i2.toLower = 'i' ∧ t.toLower = 't'
    · rw [if_pos hlet] at h
      exact ⟨l, i, m, i2, t, rest, rfl, hlet.1, hlet.2.1, hlet.2.2.1,
        hlet.2.2.2.1, hlet.2.2.2.2, h⟩
    · rw [if_neg hlet] at h; cases h

theorem limitDigitsTail_true (rest : List Char)
    (h : limitDigitsTail rest = true) :
    (rest.dropWhile isPySpace).length ≠ rest.length ∧
      ((rest.dropWhile isPySpace).dropWhile isAsciiDigit).length
        ≠ (rest.dropWhile isPySpace).length ∧
      ((rest.dropWhile isPySpace).dropWhile isAsciiDigit).all isPySpace
        = true := by
  rw [limitDigitsTail_eq] at h
  by_cases h1 : (rest.dropWhile isPySpace).length = rest.length
  · rw [if_pos h1] at h; cases h
  · rw [if_neg h1] at h
    by_cases h2 : ((rest.dropWhile isPySpace).dropWhile isAsciiDigit).length
        = (rest.dropWhile isPySpace).length
    · rw [if_pos h2] at h; cases h
    · rw [if_neg h2] at h
      exact ⟨h1, h2, h⟩

theorem revLimitSplit_some (s r4 : List Char)
    (h : revLimitSplit s.reverse = some r4) :
    r4.length ≤ s.length ∧ s.take r4.length = r4.reverse ∧
      matchesLimitSuffix (s.drop r4.length) = true := by
  rw [revLimitSplit_eq] at h
  by_cases h21 : ((s.reverse.dropWhile isPySpace).dropWhile
      isAsciiDigit).length = (s.reverse.dropWhile isPySpace).length
  · rw [if_pos h21] at h; cases h
  · rw [if_neg h21] at h
    by_cases h32 : (((s.reverse.dropWhile isPySpace).dropWhile
          isAsciiDigit).dropWhile isPySpace).length
        = ((s.reverse.dropWhile isPySpace).dropWhile isAsciiDigit).length
    · rw [if_pos h32] at h; cases h
    · rw [if_neg h32] at h
      obtain ⟨t, i, m, i2, l, rest, hr3, ht, hi, hm, hi2, hl, h54, hr4⟩ :=
        revLimitWord_some _ _ h
      subst hr4
      set W3 := s.reverse.takeWhile isPySpace with hW3def
      set r1 := s.reverse.dropWhile isPySpace with hr1def
      set D := r1.takeWhile isAsciiDigit with hDdef
      set r2 := r1.dropWhile isAsciiDigit with hr2def
      set W2 := r2.takeWhile isPySpace with hW2def
      set W1 := rest.takeWhile isPySpace with hW1def
      set R4 := rest.dropWhile isPySpace with hR4def
      have hDne : D ≠ [] := takeWhile_ne_nil_of_length r1 h21
      have hW2ne : W2 ≠ [] := takeWhile_ne_nil_of_length r2 h32
      have hW1ne : W1 ≠ [] := takeWhile_ne_nil_of_length rest h54
      have hW1pos : 0 < W1.length := List.length_pos.mpr hW1ne
      have hW2pos : 0 < W2.length := List.length_pos.mpr hW2ne
      have hDpos : 0 < D.length := List.length_pos.mpr hDne
      have hrest : rest = W1 ++ R4 := takeWhile_dropWhile_decomp isPySpace rest
      have hr2d : r2 = W2 ++ (t :: i :: m :: i2 :: l :: (W1 ++ R4)) := by
        conv_lhs => rw [takeWhile_dropWhile_decomp isPySpace r2]
        rw [hr3, ← hrest]
      have hr1d : r1 = D ++ r2 := takeWhile_dropWhile_decomp isAsciiDigit r1
      have hsd : s.reverse = W3 ++ r1 :=
        takeWhile_dropWhile_decomp isPySpace s.reverse
      have hdec : s.reverse
          = W3 ++ (D ++ (W2 ++ (t :: i :: m :: i2 :: l :: (W1 ++ R4)))) := by
        rw [hsd, hr1d, hr2d]
      have hs : s = R4.reverse ++ (W1.reverse ++ (l :: i2 :: m :: i :: t ::
          (W2.reverse ++ (D.reverse ++ W3.reverse)))) := by
        have h0 := congrArg List.reverse hdec
        rw [List.reverse_reverse] at h0
        rw [h0]
        simp [List.reverse_append, List.reverse_cons]
      refine ⟨?_, ?_, ?_⟩
      · have hlen := congrArg List.length hs
        simp only [List.length_append, List.length_reverse,
          List.length_cons] at hlen
        omega
      · rw [hs]
        exact List.take_left' (List.length_reverse R4)
      · have hdrop : s.drop R4.length
            = W1.reverse ++ (l :: i2 :: m :: i :: t ::
              (W2.reverse ++ (D.reverse ++ W3.reverse))) := by
          rw [hs]
          exact List.drop_left' (List.length_reverse R4)
        rw [hdrop, matchesLimitSuffix_eq]
        have hlns : isPySpace l = false := by
          by_contra hc
          rw [Bool.not_eq_false] at hc
          exact (space_toLower_ne l hc).1 hl
        have hs1 : (W1.reverse ++ (l :: i2 :: m :: i :: t ::
            (W2.reverse ++ (D.reverse ++ W3.reverse)))).dropWhile isPySpace
            = l :: i2 :: m :: i :: t ::
              (W2.reverse ++ (D.reverse ++ W3.reverse)) := by
          rw [dropWhile_append_all _ _ (takeWhile_reverse_all rest)]
          exact List.dropWhile_cons_of_neg (by simp [hlns])
        rw [hs1]
        rw [if_neg (by
          simp only [List.length_append, List.length_cons,
            List.length_reverse]
          omega)]
        rw [limitWord_cons, if_pos ⟨hl, hi2, hm, hi, ht⟩]
        rw [limitDigitsTail_eq]
        have hDrevne : D.reverse ≠ [] := by
          intro hc
          exact hDne (List.reverse_eq_nil_iff.mp hc)
        obtain ⟨d0, D0, hD0⟩ := List.exists_cons_of_ne_nil hDrevne
        have hd0digit : isAsciiDigit d0 = true := by
          have hd0m : d0 ∈ D.reverse := by
            rw [hD0]; exact List.mem_cons_self _ _
          exact takeWhile_all r1 d0 (List.mem_reverse.mp hd0m)
        have hs2 : (W2.reverse ++ (D.reverse ++ W3.reverse)).dropWhile
            isPySpace = D.reverse ++ W3.reverse := by
          rw [dropWhile_append_all _ _ (takeWhile_reverse_all r2)]
          rw [hD0, List.cons_append]
          exact List.dropWhile_cons_of_neg
            (by simp [digit_not_space d0 hd0digit])
        rw [hs2]
        rw [if_neg (by
          simp only [List.length_append, List.length_reverse]
          omega)]
        have hallW3 : ∀ x ∈ W3.reverse, isPySpace x = true :=
          takeWhile_reverse_all s.reverse
        have hs3 : (D.reverse ++ W3.reverse).dropWhile isAsciiDigit
            = W3.reverse := by
          rw [dropWhile_append_all _ _
            (fun x hx => takeWhile_all r1 x (List.mem_reverse.mp hx))]
          exact dropWhile_of_all_neg _
            (fun x hx => space_not_digit x (hallW3 x hx))
        rw [hs3]
        rw [if_neg (by
          simp only [List.length_append, List.length_reverse]
          omega)]
        rw [List.all_eq_true]
        exact fun x hx => hallW3 x hx

theorem matches_drop_bridge (s : List Char) (j : Nat)
    (h : matchesLimitSuffix (s.drop j) = true) :
    ∃ r4, revLimitSplit s.reverse = some r4 ∧ r4.length ≤ j := by
  rw [matchesLimitSuffix_eq] at h
  by_cases h1 : ((s.drop j).dropWhile isPySpace).length = (s.drop j).length
  · rw [if_pos h1] at h; cases h
  · rw [if_neg h1] at h
    obtain ⟨l, i, m, i2, t, rest', hu1, hl, hi, hm, hi2, ht, htail⟩ :=
      limitWord_true _ h
    obtain ⟨h2, h3, hall⟩ := limitDigitsTail_true _ htail
    set u := s.drop j with hudef
    set W1 := u.takeWhile isPySpace with hW1def
    set W2 := rest'.takeWhile isPySpace with hW2def
    set u2 := rest'.dropWhile isPySpace with hu2def
    set D := u2.takeWhile isAsciiDigit with hDdef
    set u3 := u2.dropWhile isAsciiDigit with hu3def
    have hW1ne : W1 ≠ [] := takeWhile_ne_nil_of_length u h1
    have hW2ne : W2 ≠ [] := takeWhile_ne_nil_of_length rest' h2
    have hDne : D ≠ [] := takeWhile_ne_nil_of_length u2 h3
    have hW1pos : 0 < W1.length := List.length_pos.mpr hW1ne
    have hW2pos : 0 < W2.length := List.length_pos.mpr hW2ne
    have hDpos : 0 < D.length := List.length_pos.mpr hDne
    have hrest' : rest' = W2 ++ (D ++ u3) := by
      conv_lhs => rw [takeWhile_dropWhile_decomp isPySpace rest']
      congr 1
      exact takeWhile_dropWhile_decomp isAsciiDigit u2
    have hu : u = W1 ++ (l :: i :: m :: i2 :: t :: (W2 ++ (D ++ u3))) := by
      conv_lhs => rw [takeWhile_dropWhile_decomp isPySpace u]
      rw [hu1, ← hrest']
    have hsj : s = s.take j ++ u := (List.take_append_drop j s).symm
    have hrev : s.reverse = u3.reverse ++ (D.reverse ++ (W2.reverse ++
        (t :: i2 :: m :: i :: l ::
          (W1.reverse ++ (s.take j).reverse)))) := by
      conv_lhs => rw [hsj, hu]
      simp [List.reverse_append, List.reverse_cons]
    have hu3rall : ∀ x ∈ u3.reverse, isPySpace x = true := by
      intro x hx
      exact (List.all_eq_true.mp hall) x (List.mem_reverse.mp hx)
    have hDrevne : D.reverse ≠ [] := by
      intro hc
      exact hDne (List.reverse_eq_nil_iff.mp hc)
    obtain ⟨d0, D0, hD0⟩ := List.exists_cons_of_ne_nil hDrevne
    have hd0digit : isAsciiDigit d0 = true := by
      have hd0m : d0 ∈ D.reverse := by
        rw [hD0]; exact List.mem_cons_self _ _
      exact takeWhile_all u2 d0 (List.mem_reverse.mp hd0m)
    have hr1 : s.reverse.dropWhile isPySpace
        = D.reverse ++ (W2.reverse ++ (t :: i2 :: m :: i :: l ::
          (W1.reverse ++ (s.take j).reverse))) := by
      rw [hrev]
      rw [dropWhile_append_all _ _ hu3rall]
      rw [hD0, List.cons_append]
      exact List.dropWhile_cons_of_neg
        (by simp [digit_not_space d0 hd0digit])
    have hW2rall : ∀ x ∈ W2.reverse, isPySpace x = true :=
      takeWhile_reverse_all rest'
    have hW2revne : W2.reverse ≠ [] := by
      intro hc
      exact hW2ne (List.reverse_eq_nil_iff.mp hc)
    obtain ⟨w0, Wr, hW2r⟩ := List.exists_cons_of_ne_nil hW2revne
    have hw0ws : isPySpace w0 = true := by
      apply hW2rall
      rw [hW2r]; exact List.mem_cons_self _ _
    have hr2 : (s.reverse.dropWhile isPySpace).dropWhile isAsciiDigit
        = W2.reverse ++ (t :: i2 :: m :: i :: l ::
          (W1.reverse ++ (s.take j).reverse)) := by
      rw [hr1]
      rw [dropWhile_append_all _ _
        (fun x hx => takeWhile_all u2 x (List.mem_reverse.mp hx))]
      rw [hW2r, List.cons_append]
      exact List.dropWhile_cons_of_neg (by simp [space_not_digit w0 hw0ws])
    have htns : isPySpace t = false := by
      by_contra hc
      rw [Bool.not_eq_false] at hc
      exact (space_toLower_ne t hc).2 ht
    have hr3 : ((s.reverse.dropWhile isPySpace).dropWhile
        isAsciiDigit).dropWhile isPySpace
        = t :: i2 :: m :: i :: l ::
          (W1.reverse ++ (s.take j).reverse) := by
      rw [hr2]
      rw [dropWhile_append_all _ _ hW2rall]
      exact List.dropWhile_cons_of_neg (by simp [htns])
    have hW1rall : ∀ x ∈ W1.reverse, isPySpace x = true :=
      takeWhile_reverse_all u
    have hr4 : (W1.reverse ++ (s.take j).reverse).dropWhile isPySpace
        = ((s.take j).reverse).dropWhile isPySpace :=
      dropWhile_append_all _ _ hW1rall
    have hr4le : (((s.take j).reverse).dropWhile isPySpace).length
        ≤ (s.take j).length := by
      have hadd := takeWhile_length_add isPySpace ((s.take j).reverse)
      have hrl : ((s.take j).reverse).length = (s.take j).length :=
        List.length_reverse _
      omega
    have hsplit : revLimitSplit s.reverse
        = some (((s.take j).reverse).dropWhile isPySpace) := by
      rw [revLimitSplit_eq]
      rw [if_neg (by
        rw [hr2, hr1]
        simp only [List.length_append, List.length_reverse,
          List.length_cons]
        omega)]
      rw [if_neg (by
        rw [hr3, hr2]
        simp only [List.length_append, List.length_reverse,
          List.length_cons]
        omega)]
      rw [hr3, revLimitWord_cons, if_pos ⟨ht, hi2, hm, hi, hl⟩]
      rw [hr4]
      rw [if_neg (by
        simp only [List.length_append, List.length_reverse]
        have hrl : ((s.take j).reverse).length = (s.take j).length :=
          List.length_reverse _
        omega)]
    refine ⟨_, hsplit, ?_⟩
    have hjlen : (s.take j).length ≤ j := by
      rw [List.length_take]
      omega
    omega

theorem re_sub_eq_strip (s : List Char) :
    re_sub_trailing_limit s = stripTrailingLimitClause s := by
  unfold re_sub_trailing_limit stripTrailingLimitClause
  cases hsplit : revLimitSplit s.reverse with
  | none =>
      have hno : ∀ i, matchesLimitSuffix (s.drop i) = false := by
        intro i
        by_contra hc
        rw [Bool.not_eq_false] at hc
        obtain ⟨r4, hr4, _⟩ := matches_drop_bridge s i hc
        rw [hsplit] at hr4
        cases hr4
      rw [List.find?_eq_none.mpr (fun i _ => by simp [hno i])]
  | some r4 =>
      obtain ⟨hlen, htake, hmatch⟩ := revLimitSplit_some s r4 hsplit
      have hmin : ∀ j, matchesLimitSuffix (s.drop j) = true →
          r4.length ≤ j := by
        intro j hj
        obtain ⟨r4w, hr4w, hle⟩ := matches_drop_bridge s j hj
        rw [hsplit, Option.some.injEq] at hr4w
        rw [← hr4w] at hle
        exact hle
      have hfind : (List.range (s.length + 1)).find?
          (fun i => matchesLimitSuffix (s.drop i)) = some r4.length :=
        find_range_eq_some _ _ _ (by omega) hmatch
          (fun j hji => by
            by_contra hc
            rw [Bool.not_eq_false] at hc
            have := hmin j hc
            omega)
      rw [hfind]
      exact htake

/-- C9.  For every input query string, `get_limit_query` returns the
query with trailing whitespace removed, then trailing semicolons
removed, then any trailing row-limit clause of the form `LIMIT <digits>`
(case-insensitive, preceded by whitespace, optionally followed by
trailing whitespace) stripped together with the whitespace run that
precedes it, and with `" limit 1"` appended — so the probe query
requests exactly one row. -/
theorem C9_get_limit_query (s : List Char) :
    get_limit_query s = get_limit_query_spec s ∧
      (" limit 1").toList <:+ get_limit_query s := by
  constructor
  · unfold get_limit_query get_limit_query_spec
    rw [re_sub_eq_strip]
  · exact ⟨_, rfl⟩
